import Mathlib

/-!
Verification of the import-declaration merge engine from
crates/ide-db/src/imports/merge_imports.rs.

The Rust code operates on rowan syntax trees (ast::UseTree, ast::Path).  We
embed these as plain value trees:

* a path segment carries its kind (name, self, super, crate); the syntax text
  of a segment is recovered from the kind, and the name-ref text (used by
  path_segment_cmp) is present only for name segments;
* a path is a list of segments plus the "has leading ::" flag; in the real
  grammar the leading :: token is part of the first path segment, so the text
  of the first segment includes it;
* a use tree is an optional path, a glob flag, an optional child list, and a
  tree-level :: flag for the path-less forms ::* and ::{..};
* a use declaration is a tree plus visibility and attributes.

In-place mutation is modelled by state passing: the mutating merge core
returns the final values of both trees next to the success flag, because
try_merge_imports feeds the (possibly partially mutated) trees of a failed
try_merge_trees_mut into merge_trees_into_one (the FIXME at line 52 of the
source notes this aliasing).  Recursion in recursive_merge is driven by an
explicit fuel parameter; every claim proved about success or failure of a
concrete merge exhibits the actual computation, and the universally
quantified theorems are proved for every fuel value.
-/

/-- Kind of one path segment, as distinguished by ast::PathSegmentKind.
Only name segments carry a name-ref; self/super/crate keywords have no
name-ref, which makes path_segment_cmp treat them as None. -/
inductive PathSeg where
  | name (s : String)
  | selfKw
  | superKw
  | crateKw
deriving DecidableEq, Repr

/-- Syntax text of a segment (PathSegment::syntax().text() without a
leading ::). -/
def PathSeg.text : PathSeg → String
  | .name s => s
  | .selfKw => "self"
  | .superKw => "super"
  | .crateKw => "crate"

/-- Name-ref text of a segment, as used by path_segment_cmp: only
PathSegmentKind::Name yields Some. -/
def PathSeg.nameText : PathSeg → Option String
  | .name s => some s
  | _ => none

/-- Model of ast::Path: the leading :: flag (attached to the first segment in
the real grammar) and the segment list. -/
structure UsePath where
  cc : Bool
  segs : List PathSeg
deriving DecidableEq, Repr

/-- Model of ast::UseTree.  tcc models the :: token of the path-less forms
::* and ::{..} (UseTree::coloncolon_token with no path); glob models the star
token; sub models the optional UseTreeList. -/
inductive UseTree where
  | mk (tcc : Bool) (path : Option UsePath) (glob : Bool) (sub : Option (List UseTree))
deriving Repr

def UseTree.tcc : UseTree → Bool
  | .mk b _ _ _ => b

def UseTree.path : UseTree → Option UsePath
  | .mk _ p _ _ => p

def UseTree.glob : UseTree → Bool
  | .mk _ _ g _ => g

def UseTree.sub : UseTree → Option (List UseTree)
  | .mk _ _ _ s => s

/-- Model of ast::Visibility, modelled from the spec: visibilities are
structurally equal iff the qualifier kind and the optional restriction path
match (vis_eq lives in syntax_helpers/node_ext.rs, outside src/). -/
inductive Visibility where
  | pub
  | pubCrate
  | pubSuper
  | pubSelfKind
  | pubIn (p : UsePath)
deriving DecidableEq, Repr

structure Use where
  visibility : Option Visibility
  attrs : List (List String)
  use_tree : Option UseTree
deriving Repr

/-- Comparison of two characters by code point. -/
def charCmp (a b : Char) : Ordering :=
  if a.toNat < b.toNat then .lt else if b.toNat < a.toNat then .gt else .eq

/-- Lexicographic comparison of two character lists. -/
def charsCmp : List Char → List Char → Ordering
  | [], [] => .eq
  | [], _ :: _ => .lt
  | _ :: _, [] => .gt
  | a :: as, b :: bs =>
    match charCmp a b with
    | .eq => charsCmp as bs
    | o => o

/-- String comparison by the strict order on strings: lexicographic on code
points, which coincides with the byte order on UTF-8 that Rust uses. -/
def strCmp (a b : String) : Ordering := charsCmp a.data b.data

/-- Ordering on optional strings with None first, mirroring the Ord instance
of Option in Rust used by path_segment_cmp. -/
def optStrCmp : Option String → Option String → Ordering
  | none, none => .eq
  | none, some _ => .lt
  | some _, none => .gt
  | some a, some b => strCmp a b

/-! Structural equality for use trees (ast node types derive PartialEq/Eq). -/

mutual

def UseTree.beq : UseTree → UseTree → Bool
  | .mk a p g none, .mk a' p' g' none => a == a' && p == p' && g == g'
  | .mk a p g (some l), .mk a' p' g' (some l') =>
      a == a' && p == p' && g == g' && UseTree.beqList l l'
  | _, _ => false

def UseTree.beqList : List UseTree → List UseTree → Bool
  | [], [] => true
  | t :: ts, u :: us => UseTree.beq t u && UseTree.beqList ts us
  | _, _ => false

end

mutual

theorem UseTree.beq_refl : ∀ t : UseTree, t.beq t = true
  | .mk a p g none => by simp [UseTree.beq]
  | .mk a p g (some l) => by simp [UseTree.beq, UseTree.beqList_refl l]

theorem UseTree.beqList_refl : ∀ l : List UseTree, UseTree.beqList l l = true
  | [] => rfl
  | t :: ts => by simp [UseTree.beqList, UseTree.beq_refl t, UseTree.beqList_refl ts]

end

mutual

theorem UseTree.beq_sound : ∀ t u : UseTree, t.beq u = true → t = u
  | .mk a p g none, .mk a' p' g' none => by
      simp [UseTree.beq]; rintro rfl rfl rfl; exact ⟨rfl, rfl, rfl⟩
  | .mk a p g (some l), .mk a' p' g' (some l') => by
      simp [UseTree.beq]
      rintro rfl rfl rfl h
      exact ⟨rfl, rfl, rfl, UseTree.beqList_sound l l' h⟩
  | .mk a p g none, .mk a' p' g' (some l') => by simp [UseTree.beq]
  | .mk a p g (some l), .mk a' p' g' none => by simp [UseTree.beq]

theorem UseTree.beqList_sound : ∀ l l' : List UseTree, UseTree.beqList l l' = true → l = l'
  | [], [] => fun _ => rfl
  | t :: ts, u :: us => by
      simp [UseTree.beqList]
      intro h1 h2
      exact ⟨UseTree.beq_sound t u h1, UseTree.beqList_sound ts us h2⟩
  | [], _ :: _ => by simp [UseTree.beqList]
  | _ :: _, [] => by simp [UseTree.beqList]

end

instance : DecidableEq UseTree := fun a b =>
  if h : UseTree.beq a b = true then .isTrue (UseTree.beq_sound a b h)
  else .isFalse (fun e => h (e ▸ UseTree.beq_refl a))

instance : DecidableEq Use := fun a b =>
  if h : a.visibility = b.visibility ∧ a.attrs = b.attrs ∧ a.use_tree = b.use_tree then
    .isTrue (by cases a; cases b; simp_all)
  else
    .isFalse (fun e => h (by cases e; exact ⟨rfl, rfl, rfl⟩))

/-! The merge policy and the small path helpers of merge_imports.rs. -/

/-- Model of MergeBehavior (lines 14-22). -/
inductive MergeBehavior where
  | one
  | crate
  | module
deriving DecidableEq, Repr

/-- Model of path_len (lines 389-391). -/
def path_len (p : UsePath) : Nat := p.segs.length

/-- Comparison of Option values with the Rust Ord instance for Option
(None sorts before Some), specialised to the le test the code performs on
Option of usize at line 31. -/
def optLenLe : Option Nat → Option Nat → Bool
  | none, _ => true
  | some _, none => false
  | some a, some b => a ≤ b

/-- Model of MergeBehavior::is_tree_allowed (lines 24-35). -/
def MergeBehavior.is_tree_allowed (m : MergeBehavior) (t : UseTree) : Bool :=
  match m with
  | .one => true
  | .crate => true
  | .module => t.sub.isNone && optLenLe (t.path.map path_len) (some 1)

/-- Model of path_is_self (lines 385-387): the last segment has a self token
and there is no qualifier, i.e. the path is the single segment self. -/
def path_is_self (p : UsePath) : Bool :=
  match p.segs with
  | [.selfKw] => true
  | _ => false

/-- Model of path_segment_cmp (lines 351-361): compare the optional name-ref
texts of the two segments. -/
def path_segment_cmp (a b : PathSeg) : Ordering :=
  optStrCmp a.nameText b.nameText

/-- Model of ast::Path::first_segment. -/
def first_segment (p : UsePath) : Option PathSeg := p.segs.head?

/-- Model of path_cmp_bin_search (lines 297-306). -/
def path_cmp_bin_search (lhs rhs : Option UsePath) : Ordering :=
  match lhs.bind first_segment, rhs.bind first_segment with
  | none, none => .eq
  | none, some _ => .lt
  | some _, none => .gt
  | some a, some b => path_segment_cmp a b

/-- Pointwise comparison of two segment lists that stops at the end of the
shorter list, returning eq there: the zip-find_map loop of path_cmp_short. -/
def segsCmpZip : List PathSeg → List PathSeg → Ordering
  | a :: as, b :: bs =>
    match path_segment_cmp a b with
    | .eq => segsCmpZip as bs
    | o => o
  | _, _ => .eq

/-- Model of path_cmp_short (lines 308-321). -/
def path_cmp_short (a b : UsePath) : Ordering := segsCmpZip a.segs b.segs

/-- Model of path_cmp_for_sort (lines 283-295). -/
def path_cmp_for_sort (a b : Option UsePath) : Ordering :=
  match a, b with
  | none, none => .eq
  | none, some _ => .lt
  | some _, none => .gt
  | some a, some b =>
    match path_is_self a, path_is_self b with
    | true, true => .eq
    | true, false => .lt
    | false, true => .gt
    | false, false => path_cmp_short a b

/-- Number of leading positions at which the two segment lists have the same
syntax text: the loop of common_prefix. -/
def commonLen : List PathSeg → List PathSeg → Nat
  | a :: as, b :: bs => if a.text = b.text then commonLen as bs + 1 else 0
  | _, _ => 0

/-- Model of common_prefix (lines 256-276).  In the grammar the leading ::
token belongs to the first path segment, so the texts of the first segments
agree only when the cc flags agree; the returned prefixes are the
corresponding leading sub-paths of the two inputs. -/
def commonPfx (l r : UsePath) : Option (UsePath × UsePath) :=
  if l.cc = r.cc then
    let n := commonLen l.segs r.segs
    if n = 0 then none
    else some (⟨l.cc, l.segs.take n⟩, ⟨r.cc, r.segs.take n⟩)
  else none

/-- Modelled from the spec: UseTree::is_simple_path from the syntax crate is
not under src/; a simple tree is a bare path with no nested group and no
glob star. -/
def UseTree.is_simple_path (t : UseTree) : Bool := t.sub.isNone && !t.glob

/-- Modelled from the spec: UseTree::split_prefix from the syntax crate is
not under src/.  It factors a tree with path prefix::rest into prefix::{rest}
form: the remainder of a bare path whose whole path is the prefix is a self
entry, the remainder of a glob whose whole path is the prefix is the star,
and a tree that already has the prefix::{..} shape is left unchanged. -/
def splitPfx (t : UseTree) (n : Nat) : UseTree :=
  match t.path with
  | none => t
  | some p =>
    let pre : UsePath := ⟨p.cc, p.segs.take n⟩
    let rest := p.segs.drop n
    if rest.isEmpty then
      match t.sub with
      | some _ => t
      | none =>
        if t.glob then .mk t.tcc (some pre) false (some [.mk false none true none])
        else .mk t.tcc (some pre) false (some [.mk false (some ⟨false, [.selfKw]⟩) false none])
    else .mk t.tcc (some pre) false (some [.mk false (some ⟨false, rest⟩) t.glob t.sub])

/-- Model of the tree_is_self closure (lines 208-210). -/
def tree_is_self (t : UseTree) : Bool := (t.path.map path_is_self).getD false

/-- Model of the tree_contains_self closure (lines 215-221): Some with the
self test over the child list when there is one, Some false for a glob, and
None for a bare path. -/
def tree_contains_self (t : UseTree) : Option Bool :=
  match t.sub with
  | some l => some (l.any tree_is_self)
  | none => if t.glob then some false else none

/-- Model of eq_visibility (lines 363-369); vis_eq (not under src/) is
modelled from the spec as structural equality of the visibility. -/
def eq_visibility : Option Visibility → Option Visibility → Bool
  | none, none => true
  | some a, some b => a == b
  | _, _ => false

/-- Model of eq_attrs (lines 371-383): both attribute lists are flattened to
their token streams and the streams compared textually in order. -/
def eq_attrs (a b : List (List String)) : Bool := a.flatten == b.flatten

/-! Binary search, mirroring the algorithm of the slice binary_search_by
used at lines 199-201.  The comparator is given as a function of the index
into the searched vector. -/

inductive BinSearchResult where
  | found (i : Nat)
  | notFound (i : Nat)
deriving DecidableEq, Repr

/-- Loop of slice binary_search_by: the interval is [left, right), mid is
left + (right - left) / 2, a Less comparison moves left past mid, a Greater
comparison moves right down to mid, an Equal comparison returns Ok(mid); the
loop ends with Err(left).  The interval shrinks every iteration, so a fuel of
the initial interval length is enough. -/
def binSearchGo (f : Nat → Ordering) : Nat → Nat → Nat → BinSearchResult
  | 0, left, _ => .notFound left
  | fuel + 1, left, right =>
    if left < right then
      let mid := left + (right - left) / 2
      match f mid with
      | .lt => binSearchGo f fuel (mid + 1) right
      | .gt => binSearchGo f fuel left mid
      | .eq => .found mid
    else .notFound left

def binSearch (f : Nat → Ordering) (len : Nat) : BinSearchResult :=
  binSearchGo f len 0 len

/-! The sorted working vector of recursive_merge.  The Rust code keeps a Vec
of child node handles sorted by path_cmp_for_sort; we keep a vector of
indices into the live child list instead, because the handles alias nodes
that later steps mutate in place.  sort_unstable_by is determinised as an
insertion sort; the comparator is not transitive (path_cmp_short treats a
path and its proper extensions as equal), so like the unstable sort the
result is only guaranteed to be consecutively non-decreasing. -/

def dummyTree : UseTree := .mk false none false none

/-- Child list of a tree, empty when there is no UseTreeList. -/
def UseTree.children (t : UseTree) : List UseTree := t.sub.getD []

def getT (ch : List UseTree) (i : Nat) : UseTree := ch.getD i dummyTree

/-- The le test used to keep the working vector sorted: index i sorts no
later than index j when path_cmp_for_sort of the two referenced children is
not Greater. -/
def idxLe (ch : List UseTree) (i j : Nat) : Bool :=
  match path_cmp_for_sort (getT ch i).path (getT ch j).path with
  | .gt => false
  | _ => true

def insOrd (le : Nat → Nat → Bool) (x : Nat) : List Nat → List Nat
  | [] => [x]
  | y :: ys => if le x y then x :: y :: ys else y :: insOrd le x ys

def isort (le : Nat → Nat → Bool) : List Nat → List Nat
  | [] => []
  | x :: xs => insOrd le x (isort le xs)

/-- Initial working vector: the indices of all children of lhs, sorted by
path_cmp_for_sort (line 192). -/
def sortIdx (ch : List UseTree) : List Nat := isort (idxLe ch) (List.range ch.length)

/-- Working state of recursive_merge over one lhs node: the live child list
(in syntax order, new entries appended by add_use_tree) and the sorted
index vector (the in-memory Vec the code searches and inserts into). -/
abbrev MState := List UseTree × List Nat

def UseTree.withSub (t : UseTree) (s : Option (List UseTree)) : UseTree :=
  match t with
  | .mk a p g _ => .mk a p g s

/-- Rebuild the lhs node from the final child list:
get_or_create_use_tree_list creates the child list only when something is
inserted, so a tree that had no list and received no children keeps none. -/
def UseTree.withChildren (t : UseTree) (ch : List UseTree) : UseTree :=
  match t.sub with
  | some _ => t.withSub (some ch)
  | none => if ch.isEmpty then t else t.withSub (some ch)

mutual

/-- Model of one iteration of the loop body of recursive_merge (lines
193-251) for the rhs child t: the is_tree_allowed guard, the binary search,
the Ok branch with the dedup rules and the split-and-recurse step, and the
Err branches.  Returns the success flag, the new state, and the final value
of the rhs child (the code splits and recursively merges the rhs child node
in place). -/
def merge_child : Nat → MergeBehavior → MState → UseTree → Bool × MState × UseTree
  | 0, _, st, t => (false, st, t)
  | fuel + 1, m, (ch, vec), t =>
    if m.is_tree_allowed t = false then (false, (ch, vec), t)
    else
      match binSearch (fun k => path_cmp_bin_search (getT ch (vec.getD k 0)).path t.path)
          vec.length with
      | .found idx =>
        let j := vec.getD idx 0
        let lhs_t := getT ch j
        match lhs_t.path, t.path with
        | some lp, some rp =>
          match commonPfx lp rp with
          | none => (false, (ch, vec), t)
          | some (lpre, rpre) =>
            let dedup : Option (Bool × MState × UseTree) :=
              if lpre = lp ∧ rpre = rp then
                match tree_contains_self lhs_t, tree_contains_self t with
                | some true, none => some (true, (ch, vec), t)
                | none, some true => some (true, (ch.set j t, vec), t)
                | _, _ =>
                  if lhs_t.is_simple_path ∧ t.is_simple_path then
                    some (true, (ch, vec), t)
                  else none
              else none
            match dedup with
            | some r => r
            | none =>
              let lt2 := splitPfx lhs_t lpre.segs.length
              let rt2 := splitPfx t rpre.segs.length
              let (ok, lt3, rt3) := recursive_merge fuel lt2 rt2 m
              (ok, (ch.set j lt3, vec), rt3)
        | _, _ => (false, (ch, vec), t)
      | .notFound idx =>
        if m = .module ∧ vec ≠ [] ∧ t.sub.isSome then (false, (ch, vec), t)
        else (true, (ch ++ [t], vec.insertIdx idx ch.length), t)

/-- The loop of recursive_merge over the rhs children, threading the state
and collecting the final values of the rhs children; a failure stops the
loop and leaves the remaining rhs children untouched. -/
def process_children : Nat → MergeBehavior → MState → List UseTree →
    Bool × MState × List UseTree
  | 0, _, st, ts => (false, st, ts)
  | _ + 1, _, st, [] => (true, st, [])
  | fuel + 1, m, st, t :: ts =>
    let (ok, st', t') := merge_child fuel m st t
    if ok then
      let (ok2, st2, ts') := process_children fuel m st' ts
      (ok2, st2, t' :: ts')
    else (false, st', t' :: ts)

/-- Model of recursive_merge (lines 183-254) at the state level: check every
existing lhs child against the policy (lines 184-191), build the sorted
vector (line 192), and run the loop over the rhs children.  Returns the
success flag, the final state of the lhs children, and the final rhs. -/
def recursive_merge_st : Nat → UseTree → UseTree → MergeBehavior →
    Bool × MState × UseTree
  | 0, lhs, rhs, _ => (false, (lhs.children, []), rhs)
  | fuel + 1, lhs, rhs, m =>
    let ch := lhs.children
    if ch.all m.is_tree_allowed then
      let vec := sortIdx ch
      match rhs.sub with
      | none => (true, (ch, vec), rhs)
      | some rcs =>
        let (ok, st', rcs') := process_children fuel m (ch, vec) rcs
        (ok, st', rhs.withSub (some rcs'))
    else (false, (ch, []), rhs)

/-- Model of recursive_merge at the tree level: the final child list is put
back into the lhs node.  Both final trees are returned because the code
mutates the two nodes in place and a failed call leaves them partially
rewritten. -/
def recursive_merge : Nat → UseTree → UseTree → MergeBehavior →
    Bool × UseTree × UseTree
  | 0, lhs, rhs, _ => (false, lhs, rhs)
  | fuel + 1, lhs, rhs, m =>
    let (ok, st, rhs') := recursive_merge_st fuel lhs rhs m
    (ok, lhs.withChildren st.1, rhs')

end

/-! Entry points of the merge engine. -/

/-- Model of try_merge_trees_mut (lines 72-86): both paths must exist and
share a common prefix; unless both sides are simple paths equal to their
prefixes, both trees are split at the prefix; then the recursive merger
runs.  The possibly mutated trees are returned next to the success flag. -/
def try_merge_trees_mut (fuel : Nat) (lhs rhs : UseTree) (m : MergeBehavior) :
    Bool × UseTree × UseTree :=
  match lhs.path, rhs.path with
  | some lp, some rp =>
    match commonPfx lp rp with
    | none => (false, lhs, rhs)
    | some (lpre, rpre) =>
      if lhs.is_simple_path ∧ rhs.is_simple_path ∧ lp = lpre ∧ rp = rpre then
        recursive_merge fuel lhs rhs m
      else
        recursive_merge fuel (splitPfx lhs lpre.segs.length) (splitPfx rhs rpre.segs.length) m
  | _, _ => (false, lhs, rhs)

/-- Model of the leading_coloncolon helper (lines 154-176): the :: flag of
the path when there is one, the tree-level :: flag otherwise. -/
def leading_coloncolon (t : UseTree) : Bool :=
  match t.path with
  | some p => p.cc
  | none => t.tcc

/-- Remove the leading :: token found by leading_coloncolon. -/
def stripCC (t : UseTree) : UseTree :=
  match t with
  | .mk tcc (some p) g s => .mk tcc (some ⟨false, p.segs⟩) g s
  | .mk _ none g s => .mk false none g s

/-- Model of merge_trees_into_one (lines 88-179).  Only the One policy uses
it.  The entry list takes the whole lhs when it has a path (or when it alone
carries a leading ::), else its children; same for rhs; when both sides have
a leading :: it is removed from both entries and reattached once to the
produced group.  The dbg! calls at lines 100-102 only log and are dropped.
The function returns the replacement tree that ted::replace_with_many
installs in place of lhs. -/
def merge_trees_into_one (lhs rhs : UseTree) (m : MergeBehavior) : Option UseTree :=
  if m ≠ MergeBehavior.one then none
  else
    let lhs_has_cc := leading_coloncolon lhs
    let rhs_has_cc := leading_coloncolon rhs
    let both_have_cc := lhs_has_cc && rhs_has_cc
    let lhs1 := if both_have_cc then stripCC lhs else lhs
    let rhs1 := if both_have_cc then stripCC rhs else rhs
    let lEntries : Option (List UseTree) :=
      if lhs.path.isSome || (lhs_has_cc && !rhs_has_cc) then some [lhs1]
      else match lhs1.sub with
        | some l => some l
        | none => none
    let rEntries : Option (List UseTree) :=
      if rhs.path.isSome || (rhs_has_cc && !lhs_has_cc) then some [rhs1]
      else match rhs1.sub with
        | some l => some l
        | none => none
    match lEntries, rEntries with
    | some ls, some rs => some (.mk both_have_cc none false (some (ls ++ rs)))
    | _, _ => none

/-! Fuel for the recursive merger.  Any value large enough for the concrete
computation works; the universally quantified theorems below hold for every
fuel, and the concrete evaluations check success with this one. -/

mutual

def UseTree.size : UseTree → Nat
  | .mk _ p _ none => 1 + (p.map path_len).getD 0
  | .mk _ p _ (some l) => 1 + (p.map path_len).getD 0 + UseTree.sizeList l

def UseTree.sizeList : List UseTree → Nat
  | [] => 0
  | t :: ts => UseTree.size t + UseTree.sizeList ts

end

def mergeFuel (a b : UseTree) : Nat := (a.size + b.size + 4) * (a.size + b.size + 4)

/-- Model of try_merge_trees (lines 58-70): work on copies of both trees,
try the recursive merger, fall back to the flattener on the copies the
failed attempt may have rewritten, and return the resulting tree. -/
def try_merge_trees (lhs rhs : UseTree) (m : MergeBehavior) : Option UseTree :=
  let (ok, l1, r1) := try_merge_trees_mut (mergeFuel lhs rhs) lhs rhs m
  if ok then some l1
  else merge_trees_into_one l1 r1 m

/-- Model of try_merge_imports (lines 39-56): the visibility gate, the
attribute gate, then the tree merge on deep copies, with the flatten
fallback receiving the trees that the failed recursive attempt already
rewrote (the FIXME at line 52). -/
def try_merge_imports (lhs rhs : Use) (m : MergeBehavior) : Option Use :=
  if eq_visibility lhs.visibility rhs.visibility = false then none
  else if eq_attrs lhs.attrs rhs.attrs = false then none
  else
    match lhs.use_tree, rhs.use_tree with
    | some lt, some rt =>
      let (ok, l1, r1) := try_merge_trees_mut (mergeFuel lt rt) lt rt m
      if ok then some { lhs with use_tree := some l1 }
      else
        match merge_trees_into_one l1 r1 m with
        | some res => some { lhs with use_tree := some res }
        | none => none
    | _, _ => none

/-- Caller-state protocol of try_merge_imports: the pair of declarations the
caller passed, as they stand after the call, next to the returned result.
The code clones both declarations before any tree edit (lines 48-49:
clone_subtree().clone_for_update()) and mutates only the clones, so the
caller-visible originals are returned unchanged on every path; the
definition performs the same merge work on the copies. -/
def try_merge_imports_proc (lhs rhs : Use) (m : MergeBehavior) :
    Option Use × Use × Use :=
  if eq_visibility lhs.visibility rhs.visibility = false then (none, lhs, rhs)
  else if eq_attrs lhs.attrs rhs.attrs = false then (none, lhs, rhs)
  else
    let lhsCopy := lhs
    let rhsCopy := rhs
    match lhsCopy.use_tree, rhsCopy.use_tree with
    | some lt, some rt =>
      let (ok, l1, r1) := try_merge_trees_mut (mergeFuel lt rt) lt rt m
      let res :=
        if ok then some { lhsCopy with use_tree := some l1 }
        else
          match merge_trees_into_one l1 r1 m with
          | some t => some { lhsCopy with use_tree := some t }
          | none => none
      (res, lhs, rhs)
    | _, _ => (none, lhs, rhs)

/-! Denotation: the set of fully qualified concrete paths an import tree
stands for.  An item is the leading :: flag, the segment list with the self
keywords resolved away (a trailing self entry denotes the enclosing path
itself), and the glob flag. -/

abbrev Item := Bool × List PathSeg × Bool

def filterSelf (l : List PathSeg) : List PathSeg :=
  l.filter fun s => s ≠ PathSeg.selfKw

mutual

/-- Concrete paths denoted by a tree interpreted under the accumulated
prefix (cc, pre): the tree path extends the prefix, a child list denotes the
union over the children, and a leaf denotes the accumulated path with its
glob flag. -/
def denoteTree (cc : Bool) (pre : List PathSeg) (t : UseTree) : List Item :=
  match t with
  | .mk tcc p g s =>
    let cc' := cc || (match p with | some q => q.cc | none => tcc)
    let pre' := pre ++ (match p with | some q => q.segs | none => [])
    match s with
    | some l => denoteTreeList cc' pre' l
    | none => [(cc', filterSelf pre', g)]

def denoteTreeList (cc : Bool) (pre : List PathSeg) : List UseTree → List Item
  | [] => []
  | t :: ts => denoteTree cc pre t ++ denoteTreeList cc pre ts

end

def denoteUse (u : Use) : List Item :=
  match u.use_tree with
  | some t => denoteTree false [] t
  | none => []

/-! Well-formedness.  The name-ref of a name segment can never be the text
of a path keyword (the lexer makes self, super and crate keywords), which
makes segment text injective; paths of real syntax are never empty. -/

def PathSeg.wfb : PathSeg → Bool
  | .name s => !(s == "self") && !(s == "super") && !(s == "crate")
  | _ => true

def UsePath.wfb (p : UsePath) : Bool := !p.segs.isEmpty && p.segs.all PathSeg.wfb

mutual

def UseTree.wfb : UseTree → Bool
  | .mk _ p _ none => (p.map UsePath.wfb).getD true
  | .mk _ p _ (some l) => (p.map UsePath.wfb).getD true && UseTree.wfbList l

def UseTree.wfbList : List UseTree → Bool
  | [] => true
  | t :: ts => UseTree.wfb t && UseTree.wfbList ts

end

def Use.wfb (u : Use) : Bool := (u.use_tree.map UseTree.wfb).getD true

/-! Concrete trees used by the claim instances. -/

def nmSeg (s : String) : PathSeg := .name s

def mkPath (l : List String) : UsePath := ⟨false, l.map nmSeg⟩

def bareT (l : List String) : UseTree := .mk false (some (mkPath l)) false none

def grpT (l : List String) (cs : List UseTree) : UseTree :=
  .mk false (some (mkPath l)) false (some cs)

def selfT : UseTree := .mk false (some ⟨false, [.selfKw]⟩) false none

def mkUse (t : UseTree) : Use := ⟨none, [], some t⟩

/-! Claim C10: Module eligibility. -/

/-- C10: under the Module policy is_tree_allowed accepts every tree without
a path (the Rust comparison None <= Some(1) holds), for example a bare glob
star; a tree is rejected exactly when it carries a nested tree list or a
path of at least two segments. -/
theorem c10_module_eligibility :
    (∀ t : UseTree, t.path = none → t.sub = none →
      MergeBehavior.is_tree_allowed .module t = true)
    ∧ (∀ t : UseTree, MergeBehavior.is_tree_allowed .module t = false ↔
        ((∃ l, t.sub = some l) ∨ ∃ p, t.path = some p ∧ 2 ≤ path_len p))
    ∧ MergeBehavior.is_tree_allowed .module (UseTree.mk false none true none) = true := by
  refine ⟨?_, ?_, by decide⟩
  · intro t h1 h2
    cases t with
    | mk a p g s =>
      simp only [UseTree.path] at h1
      simp only [UseTree.sub] at h2
      subst h1; subst h2
      simp [MergeBehavior.is_tree_allowed, UseTree.sub, UseTree.path, optLenLe]
  · intro t
    cases t with
    | mk a p g s =>
      cases s with
      | some l =>
        simp [MergeBehavior.is_tree_allowed, UseTree.sub, UseTree.path]
      | none =>
        cases p with
        | none =>
          simp [MergeBehavior.is_tree_allowed, UseTree.sub, UseTree.path, optLenLe]
        | some q =>
          simp [MergeBehavior.is_tree_allowed, UseTree.sub, UseTree.path, optLenLe]
          omega

/-- Instantiation of c10_module_eligibility: the path-less glob entry is
Module-eligible, and a two-segment bare path is not. -/
theorem c10_witness :
    MergeBehavior.is_tree_allowed .module (UseTree.mk false none true none) = true
    ∧ MergeBehavior.is_tree_allowed .module (bareT ["a", "b"]) = false := by
  refine ⟨(c10_module_eligibility.1 (UseTree.mk false none true none) rfl rfl), ?_⟩
  exact (c10_module_eligibility.2.1 (bareT ["a", "b"])).2
    (Or.inr ⟨mkPath ["a", "b"], rfl, by decide⟩)

/-! Claim C5: the canonical sibling comparator. -/

/-- Counterexample to C5 as stated: the claim says that when two paths agree
on all segments through the shorter one's length the shorter sorts first
(Less), but path_cmp_for_sort compares the path a with its extension a::b as
Equal. -/
theorem c5_counterexample :
    path_cmp_for_sort (some (mkPath ["a"])) (some (mkPath ["a", "b"])) ≠ Ordering.lt
    ∧ path_cmp_for_sort (some (mkPath ["a"])) (some (mkPath ["a", "b"])) = Ordering.eq := by
  decide

/-- Pointwise lexicographic comparison of optional name texts that stops at
the end of the shorter list with Equal; written from the words of the
amended claim, to be compared against the comparator of the source. -/
def zipNameCmpSpec : List (Option String) → List (Option String) → Ordering
  | x :: xs, y :: ys =>
    match optStrCmp x y with
    | .eq => zipNameCmpSpec xs ys
    | o => o
  | _, _ => .eq

/-- Comparator described by the amended claim, written from its words: a
None path first, then the sole self path, and among the rest the segmentwise
comparison of the name-ref texts (keyword segments have none and compare as
equal to each other and below every named segment), with two paths that
agree through the shorter length comparing Equal. -/
def canonicalCmpSpec : Option UsePath → Option UsePath → Ordering
  | none, none => .eq
  | none, some _ => .lt
  | some _, none => .gt
  | some a, some b =>
    if path_is_self a then (if path_is_self b then .eq else .lt)
    else if path_is_self b then .gt
    else zipNameCmpSpec (a.segs.map PathSeg.nameText) (b.segs.map PathSeg.nameText)

theorem segsCmpZip_eq_zipNameCmpSpec :
    ∀ l1 l2 : List PathSeg,
      segsCmpZip l1 l2 = zipNameCmpSpec (l1.map PathSeg.nameText) (l2.map PathSeg.nameText)
  | [], [] => rfl
  | [], _ :: _ => rfl
  | _ :: _, [] => rfl
  | a :: as, b :: bs => by
      simp only [List.map, segsCmpZip, zipNameCmpSpec, path_segment_cmp]
      cases optStrCmp a.nameText b.nameText <;>
        simp [segsCmpZip_eq_zipNameCmpSpec as bs]

/-- C5 amended: a self path sorts before every non-self path; among the
rest the comparator is the lexicographic comparison of the segment name-ref
texts (not of the full segment texts: keyword segments compare as equal),
and when the paths agree on all segments through the shorter one's length
the result is Equal, not shorter-first. -/
theorem c5_amended_comparator :
    ∀ a b : Option UsePath, path_cmp_for_sort a b = canonicalCmpSpec a b := by
  intro a b
  cases a with
  | none => cases b <;> rfl
  | some a =>
    cases b with
    | none => rfl
    | some b =>
      simp only [path_cmp_for_sort, canonicalCmpSpec]
      cases ha : path_is_self a <;> cases hb : path_is_self b <;>
        simp [path_cmp_short, segsCmpZip_eq_zipNameCmpSpec]

/-! Claim C4: the Module-policy example. -/

/-- Counterexample to C4 as stated: merging a::b::c with a::b::d under the
Module policy does not fail; the claim asserts the call returns None. -/
theorem c4_counterexample :
    try_merge_imports (mkUse (bareT ["a", "b", "c"])) (mkUse (bareT ["a", "b", "d"]))
      .module ≠ none := by decide

/-- C4 amended: merging a::b::c with a::b::d under the Module policy
succeeds and yields a::b::{c, d}; the policy check runs on the children
obtained after splitting at the common prefix a::b, and those are the single
segments c and d, which are Module-eligible. -/
theorem c4_amended_module_merge_succeeds :
    try_merge_imports (mkUse (bareT ["a", "b", "c"])) (mkUse (bareT ["a", "b", "d"]))
        .module
      = some (mkUse (grpT ["a", "b"] [bareT ["c"], bareT ["d"]])) := by decide

/-! Claim C7: the flatten-into-one fallback. -/

/-- C7: merge_trees_into_one refuses every input under the Crate and Module
policies, and under One the merge of foo::bar with baz::qux succeeds,
producing a single declaration whose group has the two paths as its
top-level entries. -/
theorem c7_flatten_fallback :
    (∀ l r : UseTree, merge_trees_into_one l r .crate = none)
    ∧ (∀ l r : UseTree, merge_trees_into_one l r .module = none)
    ∧ try_merge_imports (mkUse (bareT ["foo", "bar"])) (mkUse (bareT ["baz", "qux"])) .one
      = some (mkUse (.mk false none false (some [bareT ["foo", "bar"], bareT ["baz", "qux"]]))) := by
  refine ⟨fun l r => rfl, fun l r => rfl, by decide⟩

/-! Claim C6: the equality gate short-circuits. -/

/-- C6: when the two visibilities are not structurally equal or the
attribute token streams differ, try_merge_imports fails for every policy,
and the caller's declarations are handed back untouched. -/
theorem c6_gate_short_circuit (lhs rhs : Use) (m : MergeBehavior)
    (h : eq_visibility lhs.visibility rhs.visibility = false
      ∨ eq_attrs lhs.attrs rhs.attrs = false) :
    try_merge_imports lhs rhs m = none
    ∧ try_merge_imports_proc lhs rhs m = (none, lhs, rhs) := by
  rcases h with h | h
  · constructor <;> simp [try_merge_imports, try_merge_imports_proc, h]
  · cases hv : eq_visibility lhs.visibility rhs.visibility
    · constructor <;> simp [try_merge_imports, try_merge_imports_proc, hv]
    · constructor <;> simp [try_merge_imports, try_merge_imports_proc, hv, h]

/-- Instantiation of c6_gate_short_circuit: a pub declaration and a private
declaration with identical trees never merge. -/
theorem c6_witness :
    try_merge_imports ⟨some .pub, [], some (bareT ["a"])⟩ ⟨none, [], some (bareT ["a"])⟩
        .one = none
    ∧ try_merge_imports_proc ⟨some .pub, [], some (bareT ["a"])⟩
        ⟨none, [], some (bareT ["a"])⟩ .one
      = (none, ⟨some .pub, [], some (bareT ["a"])⟩, ⟨none, [], some (bareT ["a"])⟩) :=
  c6_gate_short_circuit _ _ .one (Or.inl rfl)

/-! Claim C2: failure leaves the caller's declarations intact. -/

theorem try_merge_imports_proc_snd (lhs rhs : Use) (m : MergeBehavior) :
    (try_merge_imports_proc lhs rhs m).2 = (lhs, rhs) := by
  unfold try_merge_imports_proc
  cases hv : eq_visibility lhs.visibility rhs.visibility <;>
    cases ha : eq_attrs lhs.attrs rhs.attrs <;>
      cases hl : lhs.use_tree <;>
        cases hr : rhs.use_tree <;>
          simp [hv, ha, hl, hr]

/-- C2: whenever try_merge_imports fails, both arguments compare
structurally equal to their pre-call originals: the code clones both
declarations before any mutation and edits only the clones. -/
theorem c2_failure_leaves_arguments_intact (lhs rhs : Use) (m : MergeBehavior)
    (h : (try_merge_imports_proc lhs rhs m).1 = none) :
    (try_merge_imports_proc lhs rhs m).2.1 = lhs
    ∧ (try_merge_imports_proc lhs rhs m).2.2 = rhs := by
  rw [try_merge_imports_proc_snd]
  exact ⟨rfl, rfl⟩

/-- Instantiation of c2_failure_leaves_arguments_intact at a failing merge:
foo::bar with baz::qux under Crate fails and both declarations are
returned as passed. -/
theorem c2_witness :
    (try_merge_imports_proc (mkUse (bareT ["foo", "bar"])) (mkUse (bareT ["baz", "qux"]))
        .crate).1 = none
    ∧ (try_merge_imports_proc (mkUse (bareT ["foo", "bar"])) (mkUse (bareT ["baz", "qux"]))
        .crate).2.1 = mkUse (bareT ["foo", "bar"])
    ∧ (try_merge_imports_proc (mkUse (bareT ["foo", "bar"])) (mkUse (bareT ["baz", "qux"]))
        .crate).2.2 = mkUse (bareT ["baz", "qux"]) := by
  refine ⟨by decide, c2_failure_leaves_arguments_intact _ _ .crate (by decide)⟩

/-! Claim C3, counterexample part: the merged tree is not canonically
sorted. -/

/-- One sortedness step: the pair does not compare Greater. -/
def pairSortedOk (a b : UseTree) : Bool :=
  match path_cmp_for_sort a.path b.path with
  | .gt => false
  | _ => true

/-- Consecutive non-decreasing check over a child list. -/
def chainSortedB : List UseTree → Bool
  | [] => true
  | [_] => true
  | a :: b :: rest => pairSortedOk a b && chainSortedB (b :: rest)

mutual

/-- Every grouped node of the tree has consecutively non-decreasing
children under path_cmp_for_sort. -/
def UseTree.sortedAllB : UseTree → Bool
  | .mk _ _ _ none => true
  | .mk _ _ _ (some l) => chainSortedB l && UseTree.sortedAllListB l

def UseTree.sortedAllListB : List UseTree → Bool
  | [] => true
  | t :: ts => UseTree.sortedAllB t && UseTree.sortedAllListB ts

end

/-- Counterexample to C3 as stated: merging a::{b, d} with a::c succeeds,
the insertion lands in the sorted working vector but add_use_tree appends
the new entry to the end of the syntax list, so the resulting children are
b, d, c, which are not non-decreasing under path_cmp_for_sort, and
re-running the canonical sort would reorder them. -/
theorem c3_counterexample :
    try_merge_imports (mkUse (grpT ["a"] [bareT ["b"], bareT ["d"]])) (mkUse (bareT ["a", "c"]))
        .crate
      = some (mkUse (grpT ["a"] [bareT ["b"], bareT ["d"], bareT ["c"]]))
    ∧ UseTree.sortedAllB (grpT ["a"] [bareT ["b"], bareT ["d"], bareT ["c"]]) = false := by
  decide

/-! Claim C8: the self-absorption dedup rules. -/

/-- Counterexample to C8 as stated: merging a::b with a::{self, b::c} does
not yield a::{self, b::c}; the bare b is matched against the child b::c of
the group, not absorbed by the self entry, so the result nests a further
group under b. -/
theorem c8_counterexample :
    try_merge_imports (mkUse (bareT ["a", "b"])) (mkUse (grpT ["a"] [selfT, bareT ["b", "c"]]))
        .crate
      ≠ some (mkUse (grpT ["a"] [selfT, bareT ["b", "c"]])) := by
  decide

/-- C8 amended: a glob is never treated as containing self; when the search
matches a child whose full path equals the full path of the incoming child
(the common prefix is both whole paths), and exactly one side has a group
containing a bare self entry while the other is a bare path, the side with
self wins: with self on the matched child the incoming duplicate is
discarded, with self on the incoming child it replaces the matched child.
The concrete merge of a::b with a::{self, b::c}, however, does not exercise
this rule and yields a::{b::{self, c}, self}. -/
theorem c8_amended_self_absorption :
    (∀ t : UseTree, t.sub = none → t.glob = true → tree_contains_self t = some false)
    ∧ (∀ (fuel : Nat) (m : MergeBehavior) (ch : List UseTree) (vec : List Nat)
        (t : UseTree) (idx : Nat) (lp rp : UsePath),
        m.is_tree_allowed t = true →
        binSearch (fun k => path_cmp_bin_search (getT ch (vec.getD k 0)).path t.path)
            vec.length = .found idx →
        (getT ch (vec.getD idx 0)).path = some lp →
        t.path = some rp →
        commonPfx lp rp = some (lp, rp) →
        (tree_contains_self (getT ch (vec.getD idx 0)) = some true →
          tree_contains_self t = none →
          merge_child (fuel + 1) m (ch, vec) t = (true, (ch, vec), t))
        ∧ (tree_contains_self (getT ch (vec.getD idx 0)) = none →
          tree_contains_self t = some true →
          merge_child (fuel + 1) m (ch, vec) t
            = (true, (ch.set (vec.getD idx 0) t, vec), t)))
    ∧ try_merge_imports (mkUse (bareT ["a", "b"]))
        (mkUse (grpT ["a"] [selfT, bareT ["b", "c"]])) .crate
      = some (mkUse (grpT ["a"] [grpT ["b"] [selfT, bareT ["c"]], selfT])) := by
  refine ⟨?_, ?_, by decide⟩
  · intro t h1 h2
    cases t with
    | mk a p g s =>
      simp only [UseTree.sub] at h1
      simp only [UseTree.glob] at h2
      subst h1; subst h2
      rfl
  · intro fuel m ch vec t idx lp rp hall hfind hlp hrp hcp
    constructor
    · intro h1 h2
      show merge_child (fuel + 1) m (ch, vec) t = _
      simp only [merge_child]
      rw [if_neg (by simp [hall])]
      rw [hfind]
      dsimp only
      rw [hlp, hrp]
      dsimp only
      rw [hcp]
      dsimp only
      rw [if_pos ⟨rfl, rfl⟩, h1, h2]
    · intro h1 h2
      show merge_child (fuel + 1) m (ch, vec) t = _
      simp only [merge_child]
      rw [if_neg (by simp [hall])]
      rw [hfind]
      dsimp only
      rw [hlp, hrp]
      dsimp only
      rw [hcp]
      dsimp only
      rw [if_pos ⟨rfl, rfl⟩, h1, h2]

/-- Instantiation of c8_amended_self_absorption: the matched child b::{self}
contains self and the incoming bare b is discarded, leaving the state
untouched. -/
theorem c8_witness :
    merge_child 1 .crate ([grpT ["b"] [selfT]], [0]) (bareT ["b"])
      = (true, ([grpT ["b"] [selfT]], [0]), bareT ["b"]) :=
  (c8_amended_self_absorption.2.1 0 .crate [grpT ["b"] [selfT]] [0] (bareT ["b"]) 0
      (mkPath ["b"]) (mkPath ["b"]) rfl (by decide) rfl rfl (by decide)).1 rfl rfl

/-! Order facts about the comparators, used to reason about the sorted
working vector and the binary search. -/

def ordK : Ordering → Nat
  | .lt => 0
  | .eq => 1
  | .gt => 2

theorem charCmp_eq_iff (a b : Char) : charCmp a b = .eq ↔ a = b := by
  unfold charCmp
  rcases Nat.lt_trichotomy a.toNat b.toNat with h | h | h
  · rw [if_pos h]
    refine ⟨fun hc => ?_, fun he => ?_⟩
    · cases hc
    · subst he; omega
  · rw [if_neg (by omega), if_neg (by omega)]
    exact ⟨fun _ => Char.eq_of_val_eq (UInt32.toNat.inj h), fun _ => rfl⟩
  · rw [if_neg (by omega), if_pos h]
    refine ⟨fun hc => ?_, fun he => ?_⟩
    · cases hc
    · subst he; omega

theorem charCmp_swap (a b : Char) : (charCmp a b).swap = charCmp b a := by
  unfold charCmp
  rcases Nat.lt_trichotomy a.toNat b.toNat with h | h | h
  · rw [if_pos h, if_neg (by omega), if_pos h]; rfl
  · rw [if_neg (by omega), if_neg (by omega), if_neg (by omega), if_neg (by omega)]; rfl
  · rw [if_neg (by omega), if_pos h, if_pos h]; rfl

theorem charCmp_lt_trans (a b c : Char) :
    charCmp a b = .lt → charCmp b c = .lt → charCmp a c = .lt := by
  unfold charCmp
  intro h1 h2
  split_ifs at h1 h2 ⊢ with g1 g2 g3 g4 g5 g6 <;> first | rfl | omega | cases h1 | cases h2

theorem charsCmp_eq_iff : ∀ a b : List Char, charsCmp a b = .eq ↔ a = b
  | [], [] => by simp [charsCmp]
  | [], _ :: _ => by simp [charsCmp]
  | _ :: _, [] => by simp [charsCmp]
  | a :: as, b :: bs => by
    simp only [charsCmp]
    cases h : charCmp a b with
    | eq =>
      have hab : a = b := (charCmp_eq_iff a b).1 h
      subst hab
      simp [charsCmp_eq_iff as bs]
    | lt =>
      constructor
      · intro hc; cases hc
      · rintro ⟨⟩
        rw [(charCmp_eq_iff a a).2 rfl] at h; cases h
    | gt =>
      constructor
      · intro hc; cases hc
      · rintro ⟨⟩
        rw [(charCmp_eq_iff a a).2 rfl] at h; cases h

theorem charsCmp_swap : ∀ a b : List Char, (charsCmp a b).swap = charsCmp b a
  | [], [] => rfl
  | [], _ :: _ => rfl
  | _ :: _, [] => rfl
  | a :: as, b :: bs => by
    simp only [charsCmp]
    rw [← charCmp_swap a b]
    cases charCmp a b with
    | lt => rfl
    | gt => rfl
    | eq => exact charsCmp_swap as bs

theorem charsCmp_lt_trans : ∀ a b c : List Char,
    charsCmp a b = .lt → charsCmp b c = .lt → charsCmp a c = .lt
  | [], [], [] => by intro h1 _; cases h1
  | [], [], _ :: _ => by intro h1 _; cases h1
  | [], _ :: _, [] => by intro _ h2; cases h2
  | [], _ :: _, _ :: _ => by intro _ _; rfl
  | _ :: _, [], _ => by intro h1 _; cases h1
  | _ :: _, _ :: _, [] => by intro _ h2; cases h2
  | a :: as, b :: bs, c :: cs => by
    simp only [charsCmp]
    intro h1 h2
    cases hab : charCmp a b with
    | gt => rw [hab] at h1; cases h1
    | eq =>
      rw [hab] at h1
      have he : a = b := (charCmp_eq_iff a b).1 hab
      subst he
      cases hac : charCmp a c with
      | lt => rfl
      | eq =>
        rw [hac] at h2
        show charsCmp as cs = .lt
        exact charsCmp_lt_trans as bs cs h1 h2
      | gt => rw [hac] at h2; cases h2
    | lt =>
      rw [hab] at h1
      cases hbc : charCmp b c with
      | lt => rw [charCmp_lt_trans a b c hab hbc]
      | eq =>
        have he : b = c := (charCmp_eq_iff b c).1 hbc
        subst he
        rw [hab]
      | gt => rw [hbc] at h2; cases h2

theorem strCmp_eq_iff (a b : String) : strCmp a b = .eq ↔ a = b := by
  unfold strCmp
  rw [charsCmp_eq_iff]
  exact ⟨fun h => by cases a; cases b; simp_all, fun h => by subst h; rfl⟩

theorem strCmp_swap (a b : String) : (strCmp a b).swap = strCmp b a := charsCmp_swap _ _

theorem strCmp_lt_trans (a b c : String) :
    strCmp a b = .lt → strCmp b c = .lt → strCmp a c = .lt := charsCmp_lt_trans _ _ _

theorem optStrCmp_eq_iff : ∀ a b : Option String, optStrCmp a b = .eq ↔ a = b
  | none, none => by simp [optStrCmp]
  | none, some _ => by simp [optStrCmp]
  | some _, none => by simp [optStrCmp]
  | some a, some b => by simp [optStrCmp, strCmp_eq_iff]

theorem optStrCmp_swap : ∀ a b : Option String, (optStrCmp a b).swap = optStrCmp b a
  | none, none => rfl
  | none, some _ => rfl
  | some _, none => rfl
  | some a, some b => strCmp_swap a b

theorem optStrCmp_lt_trans : ∀ a b c : Option String,
    optStrCmp a b = .lt → optStrCmp b c = .lt → optStrCmp a c = .lt
  | none, none, _ => by intro h1 _; cases h1
  | none, some _, none => by intro _ h2; cases h2
  | none, some _, some _ => by intro _ _; rfl
  | some _, none, _ => by intro h1 _; cases h1
  | some _, some _, none => by intro _ h2; cases h2
  | some a, some b, some c => strCmp_lt_trans a b c

/-- The layered key the binary-search comparator really compares: None for a
tree without a path or first segment, then the optional name-ref text. -/
def bKey (p : Option UsePath) : Option (Option String) :=
  (p.bind first_segment).map PathSeg.nameText

/-- Comparator on the layered keys. -/
def ooCmp : Option (Option String) → Option (Option String) → Ordering
  | none, none => .eq
  | none, some _ => .lt
  | some _, none => .gt
  | some a, some b => optStrCmp a b

theorem ooCmp_eq_iff : ∀ a b, ooCmp a b = .eq ↔ a = b
  | none, none => by simp [ooCmp]
  | none, some _ => by simp [ooCmp]
  | some _, none => by simp [ooCmp]
  | some a, some b => by simp [ooCmp, optStrCmp_eq_iff]

theorem ooCmp_lt_trans : ∀ a b c, ooCmp a b = .lt → ooCmp b c = .lt → ooCmp a c = .lt
  | none, none, _ => by intro h1 _; cases h1
  | none, some _, none => by intro _ h2; cases h2
  | none, some _, some _ => by intro _ _; rfl
  | some _, none, _ => by intro h1 _; cases h1
  | some _, some _, none => by intro _ h2; cases h2
  | some a, some b, some c => optStrCmp_lt_trans a b c

theorem path_cmp_bin_search_eq_ooCmp (a b : Option UsePath) :
    path_cmp_bin_search a b = ooCmp (bKey a) (bKey b) := by
  unfold path_cmp_bin_search bKey
  cases a.bind first_segment <;> cases b.bind first_segment <;>
    simp [ooCmp, path_segment_cmp, Option.map]

/-- Monotonicity of ooCmp in its left argument along the le relation. -/
theorem ooCmp_mono_left {x y k : Option (Option String)} (h : ooCmp x y ≠ .gt) :
    ordK (ooCmp x k) ≤ ordK (ooCmp y k) := by
  cases hxy : ooCmp x y with
  | gt => exact absurd hxy h
  | eq =>
    have : x = y := (ooCmp_eq_iff x y).1 hxy
    subst this; exact Nat.le_refl _
  | lt =>
    cases hyk : ooCmp y k with
    | lt => rw [ooCmp_lt_trans x y k hxy hyk]
    | eq =>
      have : y = k := (ooCmp_eq_iff y k).1 hyk
      subst this
      rw [hxy]
      exact Nat.zero_le _
    | gt => cases ooCmp x k <;> simp [ordK]

theorem path_is_self_iff (p : UsePath) : path_is_self p = true ↔ p.segs = [PathSeg.selfKw] := by
  rcases p with ⟨cc, segs⟩
  cases segs with
  | nil => simp [path_is_self]
  | cons s rest =>
    cases rest with
    | nil => cases s <;> simp [path_is_self]
    | cons s2 r2 => simp [path_is_self]

theorem path_segment_cmp_swap (a b : PathSeg) :
    (path_segment_cmp a b).swap = path_segment_cmp b a := optStrCmp_swap _ _

theorem path_segment_cmp_refl (a : PathSeg) : path_segment_cmp a a = .eq :=
  (optStrCmp_eq_iff _ _).2 rfl

theorem segsCmpZip_swap : ∀ l1 l2 : List PathSeg, (segsCmpZip l1 l2).swap = segsCmpZip l2 l1
  | [], [] => rfl
  | [], _ :: _ => rfl
  | _ :: _, [] => rfl
  | a :: as, b :: bs => by
    simp only [segsCmpZip]
    rw [← path_segment_cmp_swap a b]
    cases path_segment_cmp a b with
    | lt => rfl
    | gt => rfl
    | eq => exact segsCmpZip_swap as bs

theorem segsCmpZip_refl : ∀ l : List PathSeg, segsCmpZip l l = .eq
  | [] => rfl
  | a :: as => by
    simp only [segsCmpZip]
    rw [path_segment_cmp_refl a]
    exact segsCmpZip_refl as

theorem path_cmp_for_sort_swap (a b : Option UsePath) :
    (path_cmp_for_sort a b).swap = path_cmp_for_sort b a := by
  cases a with
  | none => cases b <;> rfl
  | some pa =>
    cases b with
    | none => rfl
    | some pb =>
      simp only [path_cmp_for_sort]
      cases path_is_self pa <;> cases path_is_self pb <;>
        first
          | rfl
          | exact segsCmpZip_swap pa.segs pb.segs

theorem path_cmp_for_sort_refl_ne_gt (a : Option UsePath) :
    path_cmp_for_sort a a ≠ .gt := by
  cases a with
  | none => simp [path_cmp_for_sort]
  | some p =>
    simp only [path_cmp_for_sort]
    cases path_is_self p
    · simp [path_cmp_short, segsCmpZip_refl]
    · simp

theorem ooCmp_swap : ∀ a b, (ooCmp a b).swap = ooCmp b a
  | none, none => rfl
  | none, some _ => rfl
  | some _, none => rfl
  | some a, some b => optStrCmp_swap a b

/-- Nonempty-path condition: real syntax never produces a path node with no
segments. -/
def neOpt : Option UsePath → Bool
  | some p => !p.segs.isEmpty
  | none => true

theorem neOpt_some_cons {p : UsePath} (h : neOpt (some p) = true) :
    ∃ x xs, p.segs = x :: xs := by
  cases hs : p.segs with
  | nil => rw [neOpt, hs] at h; simp at h
  | cons x xs => exact ⟨x, xs, rfl⟩

theorem bKey_none : bKey none = none := rfl

theorem bKey_some_cons {p : UsePath} {x : PathSeg} {xs : List PathSeg}
    (h : p.segs = x :: xs) : bKey (some p) = some x.nameText := by
  simp [bKey, first_segment, h, Option.bind]

/-- The canonical sibling order refines the binary-search key order: a
non-Greater path_cmp_for_sort result gives a non-Greater key comparison,
provided the paths are nonempty when present. -/
theorem forSort_le_to_bKey_le (a b : Option UsePath)
    (ha : neOpt a = true) (hb : neOpt b = true)
    (h : path_cmp_for_sort a b ≠ .gt) : ooCmp (bKey a) (bKey b) ≠ .gt := by
  cases a with
  | none =>
    rw [bKey_none]
    cases bKey b <;> simp [ooCmp]
  | some pa =>
    cases b with
    | none => simp [path_cmp_for_sort] at h
    | some pb =>
      obtain ⟨x, xs, hx⟩ := neOpt_some_cons ha
      obtain ⟨y, ys, hy⟩ := neOpt_some_cons hb
      rw [bKey_some_cons hx, bKey_some_cons hy]
      simp only [path_cmp_for_sort] at h
      cases hsa : path_is_self pa with
      | true =>
        have : pa.segs = [PathSeg.selfKw] := (path_is_self_iff pa).1 hsa
        rw [hx] at this
        cases this
        cases y.nameText <;> simp [ooCmp, optStrCmp, PathSeg.nameText]
      | false =>
        cases hsb : path_is_self pb with
        | true =>
          rw [hsa, hsb] at h
          simp at h
        | false =>
          rw [hsa, hsb] at h
          simp only [path_cmp_short, hx, hy, segsCmpZip] at h
          show optStrCmp x.nameText y.nameText ≠ .gt
          cases hxy : path_segment_cmp x y with
          | lt => rw [show optStrCmp x.nameText y.nameText = path_segment_cmp x y from rfl, hxy]; simp
          | eq => rw [show optStrCmp x.nameText y.nameText = path_segment_cmp x y from rfl, hxy]; simp
          | gt => rw [hxy] at h; simp at h

/-- A strictly smaller binary-search key gives a strictly smaller canonical
order, for nonempty paths. -/
theorem binCmp_lt_to_forSort_lt (a b : Option UsePath)
    (ha : neOpt a = true) (hb : neOpt b = true)
    (h : path_cmp_bin_search a b = .lt) : path_cmp_for_sort a b = .lt := by
  cases a with
  | none =>
    cases b with
    | none => rw [path_cmp_bin_search] at h; simp [Option.bind] at h
    | some pb => simp [path_cmp_for_sort]
  | some pa =>
    cases b with
    | none =>
      obtain ⟨x, xs, hx⟩ := neOpt_some_cons ha
      rw [path_cmp_bin_search_eq_ooCmp, bKey_some_cons hx, bKey_none] at h
      simp [ooCmp] at h
    | some pb =>
      obtain ⟨x, xs, hx⟩ := neOpt_some_cons ha
      obtain ⟨y, ys, hy⟩ := neOpt_some_cons hb
      rw [path_cmp_bin_search_eq_ooCmp, bKey_some_cons hx, bKey_some_cons hy] at h
      have hpsc : path_segment_cmp x y = .lt := h
      simp only [path_cmp_for_sort]
      cases hsa : path_is_self pa with
      | true =>
        have hpa : pa.segs = [PathSeg.selfKw] := (path_is_self_iff pa).1 hsa
        rw [hx] at hpa
        cases hpa
        cases hsb : path_is_self pb with
        | true =>
          have hpb : pb.segs = [PathSeg.selfKw] := (path_is_self_iff pb).1 hsb
          rw [hy] at hpb
          cases hpb
          rw [path_segment_cmp_refl] at hpsc
          cases hpsc
        | false => rfl
      | false =>
        cases hsb : path_is_self pb with
        | true =>
          have hpb : pb.segs = [PathSeg.selfKw] := (path_is_self_iff pb).1 hsb
          rw [hy] at hpb
          cases hpb
          exfalso
          have hps : path_segment_cmp x PathSeg.selfKw = optStrCmp x.nameText none := rfl
          rw [hps] at hpsc
          cases hnt : x.nameText with
          | none => rw [hnt] at hpsc; cases hpsc
          | some s => rw [hnt] at hpsc; cases hpsc
        | false =>
          simp only [path_cmp_short, hx, hy, segsCmpZip]
          rw [hpsc]

/-! Text injectivity for well-formed segments and the common-prefix pair. -/

theorem PathSeg.text_inj : ∀ a b : PathSeg,
    a.wfb = true → b.wfb = true → a.text = b.text → a = b := by
  intro a b ha hb h
  cases a <;> cases b <;> simp [PathSeg.text, PathSeg.wfb] at * <;> simp_all

theorem commonLen_take_eq : ∀ l1 l2 : List PathSeg,
    l1.all PathSeg.wfb = true → l2.all PathSeg.wfb = true →
    l1.take (commonLen l1 l2) = l2.take (commonLen l1 l2)
  | [], [], _, _ => rfl
  | [], _ :: _, _, _ => rfl
  | _ :: _, [], _, _ => rfl
  | a :: as, b :: bs, h1, h2 => by
    simp only [commonLen]
    by_cases h : a.text = b.text
    · rw [if_pos h]
      simp only [List.take]
      have ha : a.wfb = true ∧ as.all PathSeg.wfb = true := by
        simpa using h1
      have hb : b.wfb = true ∧ bs.all PathSeg.wfb = true := by
        simpa using h2
      rw [PathSeg.text_inj a b ha.1 hb.1 h]
      rw [commonLen_take_eq as bs ha.2 hb.2]
    · rw [if_neg h]
      rfl

theorem commonLen_le_left : ∀ l1 l2 : List PathSeg, commonLen l1 l2 ≤ l1.length
  | [], [] => Nat.le_refl _
  | [], _ :: _ => Nat.le_refl _
  | _ :: _, [] => Nat.zero_le _
  | a :: as, b :: bs => by
    simp only [commonLen, List.length]
    by_cases h : a.text = b.text
    · rw [if_pos h]
      exact Nat.succ_le_succ (commonLen_le_left as bs)
    · rw [if_neg h]
      exact Nat.zero_le _

theorem commonLen_le_right : ∀ l1 l2 : List PathSeg, commonLen l1 l2 ≤ l2.length
  | [], [] => Nat.le_refl _
  | [], _ :: _ => Nat.zero_le _
  | _ :: _, [] => Nat.le_refl _
  | a :: as, b :: bs => by
    simp only [commonLen, List.length]
    by_cases h : a.text = b.text
    · rw [if_pos h]
      exact Nat.succ_le_succ (commonLen_le_right as bs)
    · rw [if_neg h]
      exact Nat.zero_le _

/-- Shape of a successful common_prefix: same cc flag, a positive common
length, and the two prefixes are the corresponding takes. -/
theorem commonPfx_spec {l r : UsePath} {p q : UsePath}
    (h : commonPfx l r = some (p, q)) :
    l.cc = r.cc ∧ 1 ≤ commonLen l.segs r.segs
    ∧ p = ⟨l.cc, l.segs.take (commonLen l.segs r.segs)⟩
    ∧ q = ⟨r.cc, r.segs.take (commonLen l.segs r.segs)⟩ := by
  unfold commonPfx at h
  by_cases hcc : l.cc = r.cc
  · rw [if_pos hcc] at h
    by_cases hn : commonLen l.segs r.segs = 0
    · rw [if_pos hn] at h; cases h
    · rw [if_neg hn] at h
      refine ⟨hcc, by omega, ?_, ?_⟩ <;> cases h <;> rfl
  · rw [if_neg hcc] at h; cases h

/-- For well-formed segment lists the two prefixes returned by
common_prefix are equal. -/
theorem commonPfx_pair_eq {l r : UsePath} {p q : UsePath}
    (hl : l.segs.all PathSeg.wfb = true) (hr : r.segs.all PathSeg.wfb = true)
    (h : commonPfx l r = some (p, q)) : p = q := by
  obtain ⟨hcc, _, hp, hq⟩ := commonPfx_spec h
  rw [hp, hq, hcc, commonLen_take_eq l.segs r.segs hl hr]

/-! Correctness of the binary search. -/

theorem ordK_le_zero {x : Ordering} (h : ordK x ≤ 0) : x = .lt := by
  cases x <;> simp [ordK] at * <;> omega

theorem ordK_ge_two {x : Ordering} (h : 2 ≤ ordK x) : x = .gt := by
  cases x <;> simp [ordK] at * <;> omega

theorem binSearchGo_found_lt (f : Nat → Ordering) :
    ∀ (fuel left right i : Nat), binSearchGo f fuel left right = .found i → i < right
  | 0, left, right, i => by intro h; cases h
  | fuel + 1, left, right, i => by
    simp only [binSearchGo]
    by_cases hlr : left < right
    · rw [if_pos hlr]
      cases hf : f (left + (right - left) / 2) with
      | lt => intro h; exact binSearchGo_found_lt f fuel _ _ i h
      | gt =>
        intro h
        have := binSearchGo_found_lt f fuel _ _ i h
        omega
      | eq => intro h; cases h; omega
    · rw [if_neg hlr]; intro h; cases h

theorem binSearchGo_notFound_le (f : Nat → Ordering) :
    ∀ (fuel left right i : Nat), left ≤ right →
      binSearchGo f fuel left right = .notFound i → i ≤ right
  | 0, left, right, i => by intro hle h; cases h; exact hle
  | fuel + 1, left, right, i => by
    intro hle
    simp only [binSearchGo]
    by_cases hlr : left < right
    · rw [if_pos hlr]
      cases hf : f (left + (right - left) / 2) with
      | lt =>
        intro h
        exact binSearchGo_notFound_le f fuel _ _ i (by omega) h
      | gt =>
        intro h
        have := binSearchGo_notFound_le f fuel _ _ i (by omega) h
        omega
      | eq => intro h; cases h
    · rw [if_neg hlr]; intro h; cases h; exact hle

theorem binSearchGo_spec (f : Nat → Ordering) (len : Nat)
    (hmono : ∀ i j, i ≤ j → j < len → ordK (f i) ≤ ordK (f j)) :
    ∀ (fuel left right : Nat), left ≤ right → right ≤ len → right - left ≤ fuel →
      (∀ k, k < left → f k = .lt) → (∀ k, right ≤ k → k < len → f k = .gt) →
      (∀ i, binSearchGo f fuel left right = .found i → i < len ∧ f i = .eq)
      ∧ (∀ i, binSearchGo f fuel left right = .notFound i →
          i ≤ len ∧ (∀ k, k < i → f k = .lt) ∧ (∀ k, i ≤ k → k < len → f k = .gt))
  | 0, left, right => by
    intro hlr hrlen hfuel hL hR
    have : left = right := by omega
    subst this
    constructor
    · intro i h; cases h
    · intro i h
      cases h
      exact ⟨by omega, hL, fun k hk1 hk2 => hR k (by omega) hk2⟩
  | fuel + 1, left, right => by
    intro hlr hrlen hfuel hL hR
    simp only [binSearchGo]
    by_cases hlr2 : left < right
    · rw [if_pos hlr2]
      have hmid1 : left ≤ left + (right - left) / 2 := by omega
      have hmid2 : left + (right - left) / 2 < right := by omega
      cases hf : f (left + (right - left) / 2) with
      | eq =>
        constructor
        · intro i h; cases h; exact ⟨by omega, hf⟩
        · intro i h; cases h
      | lt =>
        have hL' : ∀ k, k < left + (right - left) / 2 + 1 → f k = .lt := by
          intro k hk
          apply ordK_le_zero
          have := hmono k (left + (right - left) / 2) (by omega) (by omega)
          rw [hf] at this
          simpa [ordK] using this
        exact binSearchGo_spec f len hmono fuel (left + (right - left) / 2 + 1) right
          (by omega) hrlen (by omega) hL' hR
      | gt =>
        have hR' : ∀ k, left + (right - left) / 2 ≤ k → k < len → f k = .gt := by
          intro k hk1 hk2
          apply ordK_ge_two
          have := hmono (left + (right - left) / 2) k hk1 hk2
          rw [hf] at this
          simpa [ordK] using this
        exact binSearchGo_spec f len hmono fuel left (left + (right - left) / 2)
          (by omega) (by omega) (by omega) hL hR'
    · rw [if_neg hlr2]
      have : left = right := by omega
      subst this
      constructor
      · intro i h; cases h
      · intro i h
        cases h
        exact ⟨by omega, hL, fun k hk1 hk2 => hR k (by omega) hk2⟩

theorem binSearch_found_lt {f : Nat → Ordering} {len i : Nat}
    (h : binSearch f len = .found i) : i < len :=
  binSearchGo_found_lt f len 0 len i h

theorem binSearch_notFound_le {f : Nat → Ordering} {len i : Nat}
    (h : binSearch f len = .notFound i) : i ≤ len :=
  binSearchGo_notFound_le f len 0 len i (Nat.zero_le _) h

theorem binSearch_notFound_spec {f : Nat → Ordering} {len i : Nat}
    (hmono : ∀ i j, i ≤ j → j < len → ordK (f i) ≤ ordK (f j))
    (h : binSearch f len = .notFound i) :
    i ≤ len ∧ (∀ k, k < i → f k = .lt) ∧ (∀ k, i ≤ k → k < len → f k = .gt) :=
  (binSearchGo_spec f len hmono len 0 len (Nat.zero_le _) (Nat.le_refl _) (by omega)
    (fun k hk => absurd hk (Nat.not_lt_zero k))
    (fun k hk1 hk2 => absurd (Nat.lt_of_le_of_lt hk1 hk2) (Nat.lt_irrefl len))).2 i h

/-! Sortedness of the working vector: the insertion sort produces a
consecutively non-decreasing list, insertion at the binary-search position
keeps it so, and replacing a child by one whose path is a leading prefix of
the old path keeps it so. -/

theorem mem_insOrd (le : Nat → Nat → Bool) (x : Nat) :
    ∀ (l : List Nat) (y : Nat), y ∈ insOrd le x l ↔ y = x ∨ y ∈ l
  | [], y => by simp [insOrd]
  | z :: zs, y => by
    simp only [insOrd]
    by_cases h : le x z = true
    · rw [if_pos h]; simp [or_comm, or_assoc, or_left_comm]
    · rw [if_neg h]
      simp [mem_insOrd le x zs y]
      tauto

theorem mem_isort (le : Nat → Nat → Bool) :
    ∀ (l : List Nat) (y : Nat), y ∈ isort le l ↔ y ∈ l
  | [], y => by simp [isort]
  | z :: zs, y => by
    simp only [isort]
    rw [mem_insOrd, mem_isort le zs y]
    simp

theorem chain'_insOrd (le : Nat → Nat → Bool)
    (htot : ∀ a b, le a b = false → le b a = true) (x : Nat) :
    ∀ l : List Nat, List.Chain' (fun i j => le i j = true) l →
      List.Chain' (fun i j => le i j = true) (insOrd le x l)
  | [], _ => by simp [insOrd]
  | y :: ys, h => by
    simp only [insOrd]
    by_cases hxy : le x y = true
    · rw [if_pos hxy]
      exact h.cons hxy
    · rw [if_neg hxy]
      apply List.chain'_cons'.2
      constructor
      · intro z hz
        cases ys with
        | nil =>
          simp [insOrd] at hz
          subst hz
          exact htot x y (by revert hxy; cases le x y <;> simp)
        | cons y2 ys2 =>
          simp only [insOrd] at hz
          by_cases hxy2 : le x y2 = true
          · rw [if_pos hxy2] at hz
            simp at hz
            subst hz
            exact htot x y (by revert hxy; cases le x y <;> simp)
          · rw [if_neg hxy2] at hz
            simp at hz
            subst hz
            exact (List.chain'_cons.1 h).1
      · exact chain'_insOrd le htot x ys h.tail

theorem chain'_isort (le : Nat → Nat → Bool)
    (htot : ∀ a b, le a b = false → le b a = true) :
    ∀ l : List Nat, List.Chain' (fun i j => le i j = true) (isort le l)
  | [] => by simp [isort]
  | x :: xs => by
    simp only [isort]
    exact chain'_insOrd le htot x (isort le xs) (chain'_isort le htot xs)

theorem idxLe_total (ch : List UseTree) (a b : Nat) (h : idxLe ch a b = false) :
    idxLe ch b a = true := by
  unfold idxLe at *
  cases hab : path_cmp_for_sort (getT ch a).path (getT ch b).path with
  | lt =>
    rw [hab] at h; cases h
  | eq =>
    rw [hab] at h; cases h
  | gt =>
    have := path_cmp_for_sort_swap (getT ch a).path (getT ch b).path
    rw [hab] at this
    rw [← this]
    rfl

theorem idxLe_iff (ch : List UseTree) (a b : Nat) :
    idxLe ch a b = true ↔ path_cmp_for_sort (getT ch a).path (getT ch b).path ≠ .gt := by
  unfold idxLe
  cases path_cmp_for_sort (getT ch a).path (getT ch b).path <;> simp

theorem chain'_insertIdx {α : Type} (R : α → α → Prop) (x : α) :
    ∀ (l : List α) (idx : Nat), List.Chain' R l →
      (∀ (k : Nat) (hk : k < l.length), k < idx → R (l.get ⟨k, hk⟩) x) →
      (∀ (k : Nat) (hk : k < l.length), idx ≤ k → R x (l.get ⟨k, hk⟩)) →
      List.Chain' R (List.insertIdx idx x l)
  | [], idx => by
    intro _ _ _
    cases idx with
    | zero => simp [List.insertIdx]
    | succ n => simp [List.insertIdx]
  | a :: l', idx => by
    intro hch h1 h2
    cases idx with
    | zero =>
      have hxa : R x a := h2 0 (by simp) (by omega)
      exact hch.cons hxa
    | succ n =>
      show List.Chain' R (a :: List.insertIdx n x l')
      apply List.chain'_cons'.2
      refine ⟨?_, ?_⟩
      · intro z hz
        cases l' with
        | nil =>
          cases n with
          | zero =>
            simp [List.insertIdx] at hz
            subst hz
            exact h1 0 (by simp) (by omega)
          | succ n2 => simp [List.insertIdx] at hz
        | cons b l'' =>
          cases n with
          | zero =>
            simp [List.insertIdx] at hz
            subst hz
            exact h1 0 (by simp) (by omega)
          | succ n2 =>
            simp [List.insertIdx] at hz
            subst hz
            exact (List.chain'_cons.1 hch).1
      · apply chain'_insertIdx R x l' n hch.tail
        · intro k hk hkn
          have := h1 (k + 1) (by simpa using Nat.succ_lt_succ hk) (by omega)
          simpa using this
        · intro k hk hkn
          have := h2 (k + 1) (by simpa using Nat.succ_lt_succ hk) (by omega)
          simpa using this

theorem getT_set_self {ch : List UseTree} {j : Nat} {t : UseTree} (h : j < ch.length) :
    getT (ch.set j t) j = t := by
  simp [getT, List.getD_eq_getElem?_getD, List.getElem?_set_self', h]

theorem getT_set_ne {ch : List UseTree} {i j : Nat} {t : UseTree} (h : i ≠ j) :
    getT (ch.set j t) i = getT ch i := by
  simp [getT, List.getD_eq_getElem?_getD, List.getElem?_set_ne (Ne.symm h)]

theorem getT_append_left {ch l2 : List UseTree} {i : Nat} (h : i < ch.length) :
    getT (ch ++ l2) i = getT ch i := by
  simp [getT, List.getD_eq_getElem?_getD, List.getElem?_append_left h]

theorem getT_append_last {ch : List UseTree} {t : UseTree} :
    getT (ch ++ [t]) ch.length = t := by
  simp [getT, List.getD_eq_getElem?_getD]

theorem getT_get {ch : List UseTree} {i : Nat} (h : i < ch.length) :
    getT ch i = ch.get ⟨i, h⟩ := by
  simp [getT, List.getD_eq_getElem?_getD, List.getElem?_eq_getElem h]

/-- Replacing the child at one position by a tree whose path compares no
differently keeps the vector consecutively sorted. -/
theorem chain'_vec_set {ch : List UseTree} {vec : List Nat} {j : Nat} {t' : UseTree}
    (hch : List.Chain' (fun i k => idxLe ch i k = true) vec)
    (himp : ∀ x : Option UsePath,
      (path_cmp_for_sort x (getT ch j).path ≠ .gt → path_cmp_for_sort x t'.path ≠ .gt)
      ∧ (path_cmp_for_sort (getT ch j).path x ≠ .gt → path_cmp_for_sort t'.path x ≠ .gt))
    (hself : path_cmp_for_sort t'.path t'.path ≠ .gt) :
    List.Chain' (fun i k => idxLe (ch.set j t') i k = true) vec := by
  by_cases hj : j < ch.length
  · apply List.Chain'.imp ?_ hch
    intro a b hab
    rw [idxLe_iff] at hab ⊢
    by_cases ha : a = j <;> by_cases hb : b = j
    · subst ha; subst hb
      rw [getT_set_self hj]
      exact hself
    · subst ha
      rw [getT_set_self hj, getT_set_ne hb]
      exact (himp (getT ch b).path).2 hab
    · subst hb
      rw [getT_set_self hj, getT_set_ne ha]
      exact (himp (getT ch a).path).1 hab
    · rw [getT_set_ne ha, getT_set_ne hb]
      exact hab
  · rw [List.set_eq_of_length_le (by omega)]
    exact hch

/-! Truncating one side of the segmentwise comparison never turns a
non-Greater result Greater. -/

theorem segsCmpZip_take_right (n : Nat) : ∀ xs ys : List PathSeg,
    segsCmpZip xs ys ≠ .gt → segsCmpZip xs (ys.take n) ≠ .gt := by
  induction n with
  | zero =>
    intro xs ys _
    cases xs <;> simp [segsCmpZip]
  | succ n ih =>
    intro xs ys h
    cases xs with
    | nil => cases ys.take (n + 1) <;> simp [segsCmpZip]
    | cons a as =>
      cases ys with
      | nil => simpa [segsCmpZip] using h
      | cons b bs =>
        simp only [List.take, segsCmpZip] at h ⊢
        cases hab : path_segment_cmp a b with
        | lt => simp
        | gt => rw [hab] at h; simp at h
        | eq =>
          rw [hab] at h
          exact ih as bs h

theorem segsCmpZip_take_left (n : Nat) : ∀ xs ys : List PathSeg,
    segsCmpZip xs ys ≠ .gt → segsCmpZip (xs.take n) ys ≠ .gt := by
  induction n with
  | zero =>
    intro xs ys _
    cases ys <;> simp [segsCmpZip]
  | succ n ih =>
    intro xs ys h
    cases xs with
    | nil => cases ys <;> simp [segsCmpZip]
    | cons a as =>
      cases ys with
      | nil => simp [segsCmpZip]
      | cons b bs =>
        simp only [List.take, segsCmpZip] at h ⊢
        cases hab : path_segment_cmp a b with
        | lt => simp
        | gt => rw [hab] at h; simp at h
        | eq =>
          rw [hab] at h
          exact ih as bs h

/-- path_cmp_for_sort only looks at the segment lists. -/
theorem forSort_congr_left {p p' : UsePath} (h : p.segs = p'.segs) (x : Option UsePath) :
    path_cmp_for_sort (some p) x = path_cmp_for_sort (some p') x := by
  cases x with
  | none => rfl
  | some q =>
    simp only [path_cmp_for_sort, path_is_self, path_cmp_short, h]

theorem forSort_congr_right {p p' : UsePath} (h : p.segs = p'.segs) (x : Option UsePath) :
    path_cmp_for_sort x (some p) = path_cmp_for_sort x (some p') := by
  cases x with
  | none => rfl
  | some q =>
    simp only [path_cmp_for_sort, path_is_self, path_cmp_short, h]

/-- Replacing a path by a nonempty leading prefix of itself moves it no
later in the canonical order relative to anything on the left, and no
earlier relative to anything on the right, provided a prefix that is the
bare self path only arises from the bare self path itself. -/
theorem forSort_prefix_le {lp : UsePath} {c : Bool} {n : Nat} (hn : 1 ≤ n)
    (hstrict : lp.segs.take n = [PathSeg.selfKw] → lp.segs = [PathSeg.selfKw])
    (x : Option UsePath) :
    (path_cmp_for_sort x (some lp) ≠ .gt →
      path_cmp_for_sort x (some ⟨c, lp.segs.take n⟩) ≠ .gt)
    ∧ (path_cmp_for_sort (some lp) x ≠ .gt →
      path_cmp_for_sort (some ⟨c, lp.segs.take n⟩) x ≠ .gt) := by
  by_cases hpre : (⟨c, lp.segs.take n⟩ : UsePath).segs = [PathSeg.selfKw]
  · have hlp : lp.segs = [PathSeg.selfKw] := hstrict hpre
    have hsame : (⟨c, lp.segs.take n⟩ : UsePath).segs = lp.segs := by
      rw [hpre, hlp]
    rw [forSort_congr_left hsame, forSort_congr_right hsame]
    exact ⟨id, id⟩
  · have hpreself : path_is_self ⟨c, lp.segs.take n⟩ = false := by
      cases hs : path_is_self ⟨c, lp.segs.take n⟩
      · rfl
      · exact absurd ((path_is_self_iff _).1 hs) hpre
    by_cases hlpself : lp.segs = [PathSeg.selfKw]
    · exfalso
      apply hpre
      show List.take n lp.segs = [PathSeg.selfKw]
      rw [hlpself]
      cases n with
      | zero => exact absurd hn (by omega)
      | succ n2 => simp
    · have hlpself2 : path_is_self lp = false := by
        cases hs : path_is_self lp
        · rfl
        · exact absurd ((path_is_self_iff _).1 hs) hlpself
      constructor
      · intro h
        cases x with
        | none => simp [path_cmp_for_sort]
        | some px =>
          simp only [path_cmp_for_sort, hpreself, hlpself2] at h ⊢
          cases hxs : path_is_self px with
          | false =>
            rw [hxs] at h
            simp only [path_cmp_short] at h ⊢
            exact segsCmpZip_take_right n px.segs lp.segs h
          | true => simp
      · intro h
        cases x with
        | none => simp [path_cmp_for_sort] at h
        | some px =>
          simp only [path_cmp_for_sort, hpreself, hlpself2] at h ⊢
          cases hxs : path_is_self px with
          | false =>
            rw [hxs] at h
            simp only [path_cmp_short] at h ⊢
            exact segsCmpZip_take_left n lp.segs px.segs h
          | true =>
            rw [hxs] at h
            simp at h

/-! Monotonicity of the binary-search comparator over a sorted vector. -/

theorem ooCmp_refl_ne_gt (x : Option (Option String)) : ooCmp x x ≠ .gt := by
  rw [(ooCmp_eq_iff x x).2 rfl]
  simp

theorem ooCmp_le_trans {x y z : Option (Option String)}
    (h1 : ooCmp x y ≠ .gt) (h2 : ooCmp y z ≠ .gt) : ooCmp x z ≠ .gt := by
  have := ooCmp_mono_left h1 (k := z)
  intro hgt
  rw [hgt] at this
  cases hyz : ooCmp y z with
  | lt => rw [hyz] at this; simp [ordK] at this
  | eq => rw [hyz] at this; simp [ordK] at this
  | gt => exact h2 hyz

theorem mono_of_state {ch : List UseTree} {vec : List Nat} (t : UseTree)
    (hch : List.Chain' (fun i k => idxLe ch i k = true) vec)
    (hwf : ∀ i ∈ vec, neOpt (getT ch i).path = true) :
    ∀ a b, a ≤ b → b < vec.length →
      ordK (path_cmp_bin_search (getT ch (vec.getD a 0)).path t.path)
        ≤ ordK (path_cmp_bin_search (getT ch (vec.getD b 0)).path t.path) := by
  have hconsec : ∀ (i : Nat), i + 1 < vec.length →
      ooCmp (bKey (getT ch (vec.getD i 0)).path) (bKey (getT ch (vec.getD (i+1) 0)).path)
        ≠ .gt := by
    intro i hi
    have h1 : i < vec.length := by omega
    have hcg := List.chain'_iff_get.1 hch i (by omega)
    rw [List.getD_eq_getElem _ _ h1, List.getD_eq_getElem _ _ hi]
    have hmem1 : vec.get ⟨i, h1⟩ ∈ vec := List.get_mem vec i h1
    have hmem2 : vec.get ⟨i + 1, hi⟩ ∈ vec := List.get_mem vec (i + 1) hi
    apply forSort_le_to_bKey_le _ _ (hwf _ hmem1) (hwf _ hmem2)
    rw [← idxLe_iff]
    simpa using hcg
  have hstep : ∀ (d a : Nat), a + d < vec.length →
      ooCmp (bKey (getT ch (vec.getD a 0)).path) (bKey (getT ch (vec.getD (a + d) 0)).path)
        ≠ .gt := by
    intro d
    induction d with
    | zero => intro a _; exact ooCmp_refl_ne_gt _
    | succ d ih =>
      intro a ha
      have h1 := ih a (by omega)
      have h2 := hconsec (a + d) (by omega)
      have : a + (d + 1) = a + d + 1 := by omega
      rw [this]
      exact ooCmp_le_trans h1 h2
  intro a b hab hb
  rw [path_cmp_bin_search_eq_ooCmp, path_cmp_bin_search_eq_ooCmp]
  apply ooCmp_mono_left
  have : b = a + (b - a) := by omega
  rw [this]
  exact hstep (b - a) a (by omega)

theorem chain'_imp_mem {α : Type} {R S : α → α → Prop} :
    ∀ l : List α, List.Chain' R l → (∀ a ∈ l, ∀ b ∈ l, R a b → S a b) →
      List.Chain' S l
  | [] => by intro _ _; simp
  | [a] => by intro _ _; simp
  | a :: b :: l => by
    intro hch himp
    rw [List.chain'_cons] at hch ⊢
    refine ⟨himp a (by simp) b (by simp) hch.1, ?_⟩
    exact chain'_imp_mem (b :: l) hch.2
      (fun x hx y hy hxy => himp x (List.mem_cons_of_mem a hx) y (List.mem_cons_of_mem a hy) hxy)

theorem path_cmp_bin_search_swap (a b : Option UsePath) :
    (path_cmp_bin_search a b).swap = path_cmp_bin_search b a := by
  rw [path_cmp_bin_search_eq_ooCmp, path_cmp_bin_search_eq_ooCmp, ooCmp_swap]


/-! Claim C9: the no-match branches of the loop body. -/

/-- Counterexample to C9 as stated: with an empty target child list (so the
search reports no match at position 0 and the claimed fail condition does
not hold, since the target has no children), an incoming child carrying a
nested tree list is not inserted under the Module policy; the merge fails at
the is_tree_allowed check before the search is ever consulted. -/
theorem c9_counterexample :
    binSearch (fun k =>
        path_cmp_bin_search (getT ([] : List UseTree) (([] : List Nat).getD k 0)).path
          (grpT ["d"] [bareT ["e"]]).path) ([] : List Nat).length = .notFound 0
    ∧ ¬(MergeBehavior.module = .module ∧ ([] : List Nat) ≠ []
        ∧ (grpT ["d"] [bareT ["e"]]).sub.isSome = true)
    ∧ merge_child 1 .module (([] : List UseTree), ([] : List Nat)) (grpT ["d"] [bareT ["e"]])
      ≠ (true, ([grpT ["d"] [bareT ["e"]]], [0]), grpT ["d"] [bareT ["e"]]) := by
  decide

/-- C9 amended: under the Module policy an incoming child that carries a
nested tree list fails the entire merge whether or not the target already
has children, because the is_tree_allowed guard at the top of the loop body
rejects it before the binary search (the dedicated Err-branch guard is
subsumed by that check).  In every other case a no-match outcome appends the
incoming child to the live child list and inserts its index at the position
the search reported, which keeps the working vector consecutively
non-decreasing under the canonical order for well-formed children. -/
theorem c9_amended_no_match :
    (∀ (fuel : Nat) (m : MergeBehavior) (ch : List UseTree) (vec : List Nat) (t : UseTree),
      m = .module → t.sub.isSome = true →
      merge_child (fuel + 1) m (ch, vec) t = (false, (ch, vec), t))
    ∧ (∀ (fuel : Nat) (m : MergeBehavior) (ch : List UseTree) (vec : List Nat)
        (t : UseTree) (idx : Nat),
      m.is_tree_allowed t = true →
      binSearch (fun k => path_cmp_bin_search (getT ch (vec.getD k 0)).path t.path)
        vec.length = .notFound idx →
      merge_child (fuel + 1) m (ch, vec) t
        = (true, (ch ++ [t], vec.insertIdx idx ch.length), t)
      ∧ (List.Chain' (fun i k => idxLe ch i k = true) vec →
        (∀ i ∈ vec, i < ch.length) →
        (∀ i ∈ vec, neOpt (getT ch i).path = true) →
        neOpt t.path = true →
        List.Chain' (fun i k => idxLe (ch ++ [t]) i k = true)
          (vec.insertIdx idx ch.length))) := by
  constructor
  · intro fuel m ch vec t hm hsub
    subst hm
    have hall : MergeBehavior.module.is_tree_allowed t = false := by
      cases t with
      | mk a p g s =>
        simp only [UseTree.sub] at hsub
        cases s with
        | none => cases hsub
        | some l => simp [MergeBehavior.is_tree_allowed, UseTree.sub]
    show merge_child (fuel + 1) _ (ch, vec) t = _
    simp only [merge_child]
    rw [if_pos hall]
  · intro fuel m ch vec t idx hall hfind
    have hguard : ¬(m = .module ∧ vec ≠ [] ∧ t.sub.isSome = true) := by
      rintro ⟨hm, _, hsub⟩
      subst hm
      cases t with
      | mk a p g s =>
        simp only [UseTree.sub] at hsub
        cases s with
        | none => cases hsub
        | some l => simp [MergeBehavior.is_tree_allowed, UseTree.sub] at hall
    constructor
    · show merge_child (fuel + 1) m (ch, vec) t = _
      simp only [merge_child]
      rw [if_neg (by simp [hall])]
      rw [hfind]
      dsimp only
      rw [if_neg hguard]
    · intro hch hbound hwf hwt
      have hmono := mono_of_state t hch hwf
      obtain ⟨hidxle, hlt, hgt⟩ := binSearch_notFound_spec hmono hfind
      apply chain'_insertIdx
      · apply chain'_imp_mem vec hch
        intro a ha b hb hab
        rw [idxLe_iff] at hab ⊢
        rw [getT_append_left (hbound a ha), getT_append_left (hbound b hb)]
        exact hab
      · intro k hk hkidx
        simp only [List.get_eq_getElem]
        have hfk := hlt k hkidx
        rw [List.getD_eq_getElem _ _ hk] at hfk
        have hmem : vec[k] ∈ vec := List.get_mem vec k hk
        rw [idxLe_iff, getT_append_left (hbound _ hmem), getT_append_last]
        have hfs := binCmp_lt_to_forSort_lt _ _ (hwf _ hmem) hwt hfk
        rw [hfs]
        simp
      · intro k hk hkidx
        simp only [List.get_eq_getElem]
        have hfk := hgt k hkidx hk
        rw [List.getD_eq_getElem _ _ hk] at hfk
        have hmem : vec[k] ∈ vec := List.get_mem vec k hk
        rw [idxLe_iff, getT_append_left (hbound _ hmem), getT_append_last]
        have hswap := path_cmp_bin_search_swap (getT ch vec[k]).path t.path
        rw [hfk] at hswap
        have hlt2 : path_cmp_bin_search t.path (getT ch vec[k]).path = .lt := hswap.symm
        have hfs := binCmp_lt_to_forSort_lt _ _ hwt (hwf _ hmem) hlt2
        rw [hfs]
        simp

/-- Instantiation of c9_amended_no_match: a Module merge rejects a grouped
incoming child outright, and inserting d after b appends the child and
keeps the vector sorted. -/
theorem c9_witness :
    merge_child 1 .module ([bareT ["b"]], [0]) (grpT ["d"] [bareT ["e"]])
      = (false, ([bareT ["b"]], [0]), grpT ["d"] [bareT ["e"]])
    ∧ merge_child 1 .crate ([bareT ["b"]], [0]) (bareT ["d"])
      = (true, ([bareT ["b"], bareT ["d"]], [0, 1]), bareT ["d"])
    ∧ List.Chain' (fun i k => idxLe [bareT ["b"], bareT ["d"]] i k = true) [0, 1] := by
  have h1 := c9_amended_no_match.1 0 .module [bareT ["b"]] [0] (grpT ["d"] [bareT ["e"]])
    rfl rfl
  have h2 := c9_amended_no_match.2 0 .crate [bareT ["b"]] [0] (bareT ["d"]) 1 rfl (by decide)
  refine ⟨h1, ?_, ?_⟩
  · exact h2.1.trans (by decide)
  · exact h2.2 (List.chain'_singleton _) (by decide) (by decide) rfl

/-! Strong well-formedness: paths are nonempty, name segments never spell a
path keyword, self occurs only as a whole path, and a bare-self path tree is
a leaf.  Every tree of real, compilable Rust import syntax satisfies it. -/

def UsePath.selfWholeb (p : UsePath) : Bool :=
  (p.segs == [PathSeg.selfKw] && !p.cc) || p.segs.all fun s => !(s == PathSeg.selfKw)

def UsePath.wfSb (p : UsePath) : Bool :=
  !p.segs.isEmpty && p.segs.all PathSeg.wfb && p.selfWholeb

def selfLeafOkb (t : UseTree) : Bool :=
  match t.path with
  | some q => if q.segs = [PathSeg.selfKw] then (t.sub.isNone && !t.glob) else true
  | none => true

mutual

def UseTree.wfS : UseTree → Bool
  | .mk tcc p g s =>
    (match p with | some q => q.wfSb | none => true)
    && selfLeafOkb (.mk tcc p g s)
    && (match s with | some l => UseTree.wfSList l | none => true)

def UseTree.wfSList : List UseTree → Bool
  | [] => true
  | t :: ts => UseTree.wfS t && UseTree.wfSList ts

end

theorem wfSList_iff : ∀ l : List UseTree, UseTree.wfSList l = true ↔ ∀ c ∈ l, c.wfS = true
  | [] => by simp [UseTree.wfSList]
  | t :: ts => by
    simp [UseTree.wfSList, wfSList_iff ts]

theorem wfS_destruct (t : UseTree) (h : t.wfS = true) :
    (∀ q, t.path = some q → q.wfSb = true)
    ∧ selfLeafOkb t = true
    ∧ (∀ c ∈ t.children, c.wfS = true) := by
  cases t with
  | mk tcc p g s =>
    unfold UseTree.wfS at h
    rw [Bool.and_eq_true, Bool.and_eq_true] at h
    refine ⟨?_, h.1.2, ?_⟩
    · intro q hq
      simp only [UseTree.path] at hq
      subst hq
      exact h.1.1
    · intro c hc
      simp only [UseTree.children, UseTree.sub] at hc
      cases s with
      | none => simp at hc
      | some l =>
        simp at hc
        exact (wfSList_iff l).1 h.2 c hc

theorem wfS_build (tcc : Bool) (p : Option UsePath) (g : Bool) (s : Option (List UseTree))
    (hp : ∀ q, p = some q → q.wfSb = true)
    (hsl : selfLeafOkb (.mk tcc p g s) = true)
    (hs : ∀ l, s = some l → ∀ c ∈ l, c.wfS = true) :
    (UseTree.mk tcc p g s).wfS = true := by
  unfold UseTree.wfS
  rw [Bool.and_eq_true, Bool.and_eq_true]
  refine ⟨⟨?_, hsl⟩, ?_⟩
  · cases p with
    | none => rfl
    | some q => exact hp q rfl
  · cases s with
    | none => rfl
    | some l => exact (wfSList_iff l).2 (hs l rfl)

theorem wfSb_ne {p : UsePath} (h : p.wfSb = true) : neOpt (some p) = true := by
  simp only [UsePath.wfSb, Bool.and_eq_true] at h
  simp [neOpt, h.1.1]

theorem all_take {l : List PathSeg} {f : PathSeg → Bool} (h : l.all f = true) (n : Nat) :
    (l.take n).all f = true := by
  rw [List.all_eq_true] at h ⊢
  intro x hx
  exact h x (List.mem_of_mem_take hx)

theorem all_drop {l : List PathSeg} {f : PathSeg → Bool} (h : l.all f = true) (n : Nat) :
    (l.drop n).all f = true := by
  rw [List.all_eq_true] at h ⊢
  intro x hx
  exact h x (List.mem_of_mem_drop hx)

theorem selfWholeb_no_self {p : UsePath} (h : p.selfWholeb = true)
    (hne : p.segs ≠ [PathSeg.selfKw]) :
    p.segs.all (fun s => !(s == PathSeg.selfKw)) = true := by
  unfold UsePath.selfWholeb at h
  rw [Bool.or_eq_true] at h
  cases h with
  | inl h =>
    rw [Bool.and_eq_true] at h
    exact absurd (by simpa using h.1) hne
  | inr h => exact h

theorem no_self_take {l : List PathSeg} (h : l.all (fun s => !(s == PathSeg.selfKw)) = true)
    (n : Nat) : (l.take n) ≠ [PathSeg.selfKw] := by
  intro he
  have : PathSeg.selfKw ∈ l.take n := by rw [he]; simp
  have hmem := List.mem_of_mem_take this
  rw [List.all_eq_true] at h
  have := h _ hmem
  simp at this

theorem no_self_drop {l : List PathSeg} (h : l.all (fun s => !(s == PathSeg.selfKw)) = true)
    (n : Nat) : (l.drop n) ≠ [PathSeg.selfKw] := by
  intro he
  have : PathSeg.selfKw ∈ l.drop n := by rw [he]; simp
  have hmem := List.mem_of_mem_drop this
  rw [List.all_eq_true] at h
  have := h _ hmem
  simp at this

theorem selfWholeb_of_no_self {l : List PathSeg} {c : Bool}
    (h : l.all (fun s => !(s == PathSeg.selfKw)) = true) :
    (UsePath.mk c l).selfWholeb = true := by
  unfold UsePath.selfWholeb
  rw [Bool.or_eq_true]
  exact Or.inr h

/-! Facts about split_prefix and the denotation. -/

theorem splitPfx_path {t : UseTree} {p : UsePath} (h : t.path = some p) (n : Nat) :
    (splitPfx t n).path = some ⟨p.cc, p.segs.take n⟩ := by
  unfold splitPfx
  rw [h]
  dsimp only
  by_cases hr : (p.segs.drop n).isEmpty
  · rw [if_pos hr]
    cases hs : t.sub with
    | some l =>
      rw [h]
      have hlen : p.segs.length ≤ n := by
        rw [List.isEmpty_iff, List.drop_eq_nil_iff] at hr
        exact hr
      rw [List.take_of_length_le hlen]
    | none =>
      cases t.glob <;> simp [UseTree.path]
  · rw [if_neg hr]
    simp [UseTree.path]

theorem splitPfx_sub_isSome {t : UseTree} {p : UsePath} (h : t.path = some p) (n : Nat) :
    (splitPfx t n).sub.isSome = true := by
  unfold splitPfx
  rw [h]
  dsimp only
  by_cases hr : (p.segs.drop n).isEmpty
  · rw [if_pos hr]
    cases hs : t.sub with
    | some l => rw [hs]; rfl
    | none => cases t.glob <;> simp [UseTree.sub]
  · rw [if_neg hr]
    simp [UseTree.sub]

/-- Context extension by a tree's own path: the accumulated leading ::
flag and prefix segments for interpreting its children. -/
def extCC (cc : Bool) (t : UseTree) : Bool :=
  cc || (match t.path with | some q => q.cc | none => t.tcc)

def extPre (pre : List PathSeg) (t : UseTree) : List PathSeg :=
  pre ++ (match t.path with | some q => q.segs | none => [])

theorem denoteTree_sub_some {t : UseTree} {l : List UseTree} (h : t.sub = some l)
    (cc : Bool) (pre : List PathSeg) :
    denoteTree cc pre t = denoteTreeList (extCC cc t) (extPre pre t) l := by
  cases t with
  | mk tcc p g s =>
    simp only [UseTree.sub] at h
    subst h
    unfold denoteTree extCC extPre
    rfl

theorem denoteTree_sub_none {t : UseTree} (h : t.sub = none)
    (cc : Bool) (pre : List PathSeg) :
    denoteTree cc pre t = [(extCC cc t, filterSelf (extPre pre t), t.glob)] := by
  cases t with
  | mk tcc p g s =>
    simp only [UseTree.sub] at h
    subst h
    unfold denoteTree extCC extPre
    rfl

theorem denoteTreeList_cons (cc : Bool) (pre : List PathSeg) (t : UseTree)
    (ts : List UseTree) :
    denoteTreeList cc pre (t :: ts) = denoteTree cc pre t ++ denoteTreeList cc pre ts := by
  simp only [denoteTreeList]

theorem denoteTreeList_nil (cc : Bool) (pre : List PathSeg) :
    denoteTreeList cc pre [] = [] := by
  simp only [denoteTreeList]

theorem denoteTreeList_append (cc : Bool) (pre : List PathSeg) :
    ∀ xs ys : List UseTree,
      denoteTreeList cc pre (xs ++ ys) = denoteTreeList cc pre xs ++ denoteTreeList cc pre ys
  | [], ys => by simp [denoteTreeList_nil]
  | x :: xs, ys => by
    rw [List.cons_append, denoteTreeList_cons, denoteTreeList_cons,
      denoteTreeList_append cc pre xs ys, List.append_assoc]

theorem mem_denoteTreeList {a : Item} (cc : Bool) (pre : List PathSeg) :
    ∀ l : List UseTree, a ∈ denoteTreeList cc pre l ↔ ∃ t ∈ l, a ∈ denoteTree cc pre t
  | [] => by simp [denoteTreeList_nil]
  | t :: ts => by
    rw [denoteTreeList_cons]
    simp [mem_denoteTreeList cc pre ts]

theorem mem_denoteTreeList_getElem {a : Item} {cc : Bool} {pre : List PathSeg}
    {l : List UseTree} :
    a ∈ denoteTreeList cc pre l ↔
      ∃ (i : Nat) (h : i < l.length), a ∈ denoteTree cc pre (l.get ⟨i, h⟩) := by
  rw [mem_denoteTreeList]
  constructor
  · rintro ⟨t, ht, hat⟩
    obtain ⟨i, hi, hit⟩ := List.mem_iff_getElem.1 ht
    exact ⟨i, hi, by rw [List.get_eq_getElem, hit]; exact hat⟩
  · rintro ⟨i, hi, hit⟩
    exact ⟨l.get ⟨i, hi⟩, List.get_mem l i hi, hit⟩

theorem filterSelf_append_self (l : List PathSeg) :
    filterSelf (l ++ [PathSeg.selfKw]) = filterSelf l := by
  simp [filterSelf, List.filter_append]

theorem extCC_path_some {t : UseTree} {q : UsePath} (h : t.path = some q) (cc : Bool) :
    extCC cc t = (cc || q.cc) := by
  unfold extCC
  rw [h]

theorem extPre_path_some {t : UseTree} {q : UsePath} (h : t.path = some q)
    (pre : List PathSeg) : extPre pre t = pre ++ q.segs := by
  unfold extPre
  rw [h]

/-- Splitting a tree at a prefix of its path does not change its
denotation. -/
theorem denoteTree_splitPfx (cc : Bool) (pre : List PathSeg) {t : UseTree} {p : UsePath}
    (h : t.path = some p) (n : Nat) :
    denoteTree cc pre (splitPfx t n) = denoteTree cc pre t := by
  cases t with
  | mk tcc p0 g s =>
    simp only [UseTree.path] at h
    subst h
    show denoteTree cc pre (splitPfx (UseTree.mk tcc (some p) g s) n) = _
    unfold splitPfx
    dsimp only [UseTree.path, UseTree.tcc, UseTree.sub, UseTree.glob]
    by_cases hr : (p.segs.drop n).isEmpty
    · rw [if_pos hr]
      have hlen : p.segs.length ≤ n := by
        rw [List.isEmpty_iff, List.drop_eq_nil_iff] at hr
        exact hr
      have htake : p.segs.take n = p.segs := List.take_of_length_le hlen
      cases s with
      | some l => rfl
      | none =>
        cases g with
        | true => simp [denoteTree, denoteTreeList, htake]
        | false =>
          simp [denoteTree, denoteTreeList, htake, filterSelf, List.filter_append]
    · rw [if_neg hr]
      cases s with
      | some l => simp [denoteTree, denoteTreeList]
      | none => simp [denoteTree, denoteTreeList]

theorem wfSb_take {p : UsePath} (hq : p.wfSb = true) {n : Nat} (hn : 1 ≤ n) :
    (UsePath.mk p.cc (p.segs.take n)).wfSb = true := by
  unfold UsePath.wfSb at hq ⊢
  rw [Bool.and_eq_true, Bool.and_eq_true] at hq ⊢
  obtain ⟨⟨hne, hall⟩, hsw⟩ := hq
  refine ⟨⟨?_, all_take hall n⟩, ?_⟩
  · cases hs : p.segs with
    | nil => rw [hs] at hne; simp at hne
    | cons x xs =>
      cases n with
      | zero => omega
      | succ n2 => simp
  · by_cases hps : p.segs = [PathSeg.selfKw]
    · have hcc : p.cc = false := by
        unfold UsePath.selfWholeb at hsw
        rw [Bool.or_eq_true] at hsw
        cases hsw with
        | inl h => rw [Bool.and_eq_true] at h; simpa using h.2
        | inr h => rw [hps] at h; simp [List.all_cons] at h
      rw [hps, hcc]
      cases n with
      | zero => omega
      | succ n2 =>
        show (UsePath.mk false (List.take (n2 + 1) [PathSeg.selfKw])).selfWholeb = true
        rw [List.take_of_length_le (by simp)]
        rfl
    · have hns := selfWholeb_no_self hsw hps
      exact selfWholeb_of_no_self (all_take hns n)

theorem take_self_of_selfWhole {p : UsePath} (hq : p.wfSb = true) {n : Nat}
    (h : p.segs.take n = [PathSeg.selfKw]) : p.segs = [PathSeg.selfKw] := by
  by_cases hps : p.segs = [PathSeg.selfKw]
  · exact hps
  · unfold UsePath.wfSb at hq
    rw [Bool.and_eq_true, Bool.and_eq_true] at hq
    exact absurd h (no_self_take (selfWholeb_no_self hq.2 hps) n)

theorem wfS_splitPfx {t : UseTree} {p : UsePath} (h : t.path = some p) {n : Nat}
    (hn : 1 ≤ n) (hwf : t.wfS = true)
    (hself : p.segs = [PathSeg.selfKw] → t.sub.isSome = true) :
    (splitPfx t n).wfS = true := by
  obtain ⟨hq, hleaf, hch⟩ := wfS_destruct t hwf
  have hpw : p.wfSb = true := hq p h
  cases t with
  | mk tcc p0 g s =>
    simp only [UseTree.path] at h
    subst h
    show (splitPfx (UseTree.mk tcc (some p) g s) n).wfS = true
    unfold splitPfx
    dsimp only [UseTree.path, UseTree.tcc, UseTree.sub, UseTree.glob]
    by_cases hr : (p.segs.drop n).isEmpty
    · rw [if_pos hr]
      cases s with
      | some l => exact hwf
      | none =>
        have hpns : p.segs ≠ [PathSeg.selfKw] := by
          intro hps
          have := hself hps
          simp [UseTree.sub] at this
        have hprens : p.segs.take n ≠ [PathSeg.selfKw] := by
          intro hx
          exact hpns (take_self_of_selfWhole hpw hx)
        cases g with
        | true =>
          apply wfS_build
          · intro q hq2
            cases hq2
            exact wfSb_take hpw hn
          · unfold selfLeafOkb
            simp only [UseTree.path]
            rw [if_neg hprens]
          · intro l2 hl2 c hc
            cases hl2
            simp at hc
            subst hc
            decide
        | false =>
          apply wfS_build
          · intro q hq2
            cases hq2
            exact wfSb_take hpw hn
          · unfold selfLeafOkb
            simp only [UseTree.path]
            rw [if_neg hprens]
          · intro l2 hl2 c hc
            cases hl2
            simp at hc
            subst hc
            decide
    · rw [if_neg hr]
      have hpns : p.segs ≠ [PathSeg.selfKw] := by
        intro hps
        rw [hps] at hr
        cases n with
        | zero => omega
        | succ n2 => simp at hr
      have hprens : p.segs.take n ≠ [PathSeg.selfKw] := by
        intro hx
        exact hpns (take_self_of_selfWhole hpw hx)
      have hnoself : p.segs.all (fun s => !(s == PathSeg.selfKw)) = true := by
        unfold UsePath.wfSb at hpw
        rw [Bool.and_eq_true, Bool.and_eq_true] at hpw
        exact selfWholeb_no_self hpw.2 hpns
      apply wfS_build
      · intro q hq2
        cases hq2
        exact wfSb_take hpw hn
      · unfold selfLeafOkb
        simp only [UseTree.path]
        rw [if_neg hprens]
      · intro l2 hl2 c hc
        cases hl2
        simp at hc
        subst hc
        apply wfS_build
        · intro q hq2
          cases hq2
          unfold UsePath.wfSb
          rw [Bool.and_eq_true, Bool.and_eq_true]
          refine ⟨⟨by simpa using hr, ?_⟩, ?_⟩
          · unfold UsePath.wfSb at hpw
            rw [Bool.and_eq_true, Bool.and_eq_true] at hpw
            exact all_drop hpw.1.2 n
          · exact selfWholeb_of_no_self (all_drop hnoself n)
        · unfold selfLeafOkb
          simp only [UseTree.path]
          rw [if_neg (no_self_drop hnoself n)]
        · intro l3 hl3 c2 hc2
          rw [hl3] at hch
          apply hch
          simp [UseTree.children, UseTree.sub, hl3]
          exact hc2

/-! Helper facts for the state-level merge engine. -/

theorem wfS_neOpt {t : UseTree} (h : t.wfS = true) : neOpt t.path = true := by
  cases hp : t.path with
  | none => rfl
  | some q => exact wfSb_ne ((wfS_destruct t h).1 q hp)

theorem withSub_path (t : UseTree) (s : Option (List UseTree)) :
    (t.withSub s).path = t.path := by
  cases t with
  | mk a p g s0 => rfl

theorem withSub_tcc (t : UseTree) (s : Option (List UseTree)) :
    (t.withSub s).tcc = t.tcc := by
  cases t with
  | mk a p g s0 => rfl

theorem withSub_glob (t : UseTree) (s : Option (List UseTree)) :
    (t.withSub s).glob = t.glob := by
  cases t with
  | mk a p g s0 => rfl

theorem withSub_sub (t : UseTree) (s : Option (List UseTree)) :
    (t.withSub s).sub = s := by
  cases t with
  | mk a p g s0 => rfl

theorem withChildren_path (t : UseTree) (ch : List UseTree) :
    (t.withChildren ch).path = t.path := by
  unfold UseTree.withChildren
  cases t.sub with
  | some l => exact withSub_path t _
  | none =>
    by_cases h : ch.isEmpty
    · rw [if_pos h]
    · rw [if_neg h]
      exact withSub_path t _

theorem withChildren_self (t : UseTree) : t.withChildren t.children = t := by
  unfold UseTree.withChildren UseTree.children
  cases t with
  | mk a p g s =>
    cases s with
    | some l => rfl
    | none => rfl

theorem withChildren_of_sub_some {t : UseTree} {l : List UseTree} (h : t.sub = some l)
    (ch : List UseTree) : t.withChildren ch = t.withSub (some ch) := by
  unfold UseTree.withChildren
  rw [h]

theorem isort_noop (le : Nat → Nat → Bool) :
    ∀ l : List Nat, List.Chain' (fun i j => le i j = true) l → isort le l = l
  | [] => by intro _; rfl
  | [x] => by intro _; rfl
  | x :: y :: ys => by
    intro h
    rw [List.chain'_cons] at h
    show insOrd le x (isort le (y :: ys)) = x :: y :: ys
    rw [isort_noop le (y :: ys) h.2]
    show (if le x y = true then x :: y :: ys else y :: insOrd le x ys) = x :: y :: ys
    rw [if_pos h.1]

theorem mem_sortIdx {ch : List UseTree} {i : Nat} (h : i ∈ sortIdx ch) : i < ch.length := by
  unfold sortIdx at h
  rw [mem_isort] at h
  simpa using h

theorem chain'_sortIdx (ch : List UseTree) :
    List.Chain' (fun i j => idxLe ch i j = true) (sortIdx ch) :=
  chain'_isort (idxLe ch) (idxLe_total ch) (List.range ch.length)

theorem contains_self_none {t : UseTree} (h : tree_contains_self t = none) :
    t.sub = none ∧ t.glob = false := by
  unfold tree_contains_self at h
  cases hs : t.sub with
  | some l => rw [hs] at h; cases h
  | none =>
    rw [hs] at h
    cases hg : t.glob with
    | true => rw [hg] at h; simp at h
    | false => exact ⟨rfl, rfl⟩

theorem contains_self_some_true {t : UseTree} (h : tree_contains_self t = some true) :
    ∃ l, t.sub = some l ∧ ∃ c ∈ l, tree_is_self c = true := by
  unfold tree_contains_self at h
  cases hs : t.sub with
  | some l =>
    rw [hs] at h
    have h' : some (l.any tree_is_self) = some true := h
    have h2 : l.any tree_is_self = true := by injection h'
    exact ⟨l, rfl, by simpa using h2⟩
  | none =>
    rw [hs] at h
    have h' : (if t.glob = true then some false else none) = some true := h
    cases hg : t.glob with
    | true => rw [hg] at h'; simp at h'
    | false => rw [hg] at h'; simp at h'

theorem tree_is_self_spec {c : UseTree} (h : tree_is_self c = true) :
    ∃ q, c.path = some q ∧ q.segs = [PathSeg.selfKw] := by
  unfold tree_is_self at h
  cases hp : c.path with
  | none => rw [hp] at h; simp [Option.map] at h
  | some q =>
    rw [hp] at h
    simp [Option.map] at h
    exact ⟨q, rfl, (path_is_self_iff q).1 h⟩

theorem wfS_self_leaf {c : UseTree} {q : UsePath} (hw : c.wfS = true)
    (hp : c.path = some q) (hq : q.segs = [PathSeg.selfKw]) :
    c.sub = none ∧ c.glob = false ∧ q.cc = false := by
  obtain ⟨hpw, hleaf, _⟩ := wfS_destruct c hw
  have hqw := hpw q hp
  unfold selfLeafOkb at hleaf
  rw [hp] at hleaf
  have hleaf2 : (if q.segs = [PathSeg.selfKw] then c.sub.isNone && !c.glob else true)
      = true := hleaf
  rw [if_pos hq, Bool.and_eq_true] at hleaf2
  refine ⟨by simpa using hleaf2.1, by simpa using hleaf2.2, ?_⟩
  unfold UsePath.wfSb at hqw
  rw [Bool.and_eq_true, Bool.and_eq_true] at hqw
  have hsw := hqw.2
  unfold UsePath.selfWholeb at hsw
  rw [Bool.or_eq_true] at hsw
  cases hsw with
  | inl h2 => rw [Bool.and_eq_true] at h2; simpa using h2.2
  | inr h2 => rw [hq] at h2; simp [List.all_cons] at h2

theorem ext_eq_of_path_eq {lhs rhs : UseTree} {q : UsePath}
    (hl : lhs.path = some q) (hr : rhs.path = some q) (cc : Bool) (pre : List PathSeg) :
    extCC cc lhs = extCC cc rhs ∧ extPre pre lhs = extPre pre rhs := by
  rw [extCC_path_some hl, extCC_path_some hr, extPre_path_some hl, extPre_path_some hr]
  exact ⟨rfl, rfl⟩

/-- A group that contains a self entry denotes, among others, the bare
accumulated path itself. -/
theorem contains_self_item {t : UseTree} (ht : t.wfS = true)
    (hcs : tree_contains_self t = some true) (cc : Bool) (pre : List PathSeg) :
    (extCC cc t, filterSelf (extPre pre t), false) ∈ denoteTree cc pre t := by
  obtain ⟨l, hsub, c0, hc0, hself⟩ := contains_self_some_true hcs
  obtain ⟨q0, hq0p, hq0s⟩ := tree_is_self_spec hself
  have hc0w : c0.wfS = true := by
    have := (wfS_destruct t ht).2.2
    apply this
    simp [UseTree.children, hsub]
    exact hc0
  obtain ⟨hc0sub, hc0glob, hq0cc⟩ := wfS_self_leaf hc0w hq0p hq0s
  rw [denoteTree_sub_some hsub]
  rw [mem_denoteTreeList]
  refine ⟨c0, hc0, ?_⟩
  rw [denoteTree_sub_none hc0sub]
  rw [hc0glob]
  rw [extCC_path_some hq0p, extPre_path_some hq0p, hq0cc, hq0s]
  rw [filterSelf_append_self]
  simp

/-- A bare (path-only, no glob) tree denotes exactly the accumulated path. -/
theorem bare_item {t : UseTree} (hs : t.sub = none) (hg : t.glob = false)
    (cc : Bool) (pre : List PathSeg) (a : Item) :
    a ∈ denoteTree cc pre t ↔ a = (extCC cc t, filterSelf (extPre pre t), false) := by
  rw [denoteTree_sub_none hs, hg]
  simp

/-- Decomposition of a set at an in-range index. -/
theorem set_decomp {ch : List UseTree} {j : Nat} (h : j < ch.length) (u : UseTree) :
    ch.set j u = ch.take j ++ u :: ch.drop (j+1) := by
  rw [List.set_eq_take_append_cons_drop, if_pos h]

theorem self_decomp {ch : List UseTree} {j : Nat} (h : j < ch.length) :
    ch = ch.take j ++ getT ch j :: ch.drop (j+1) := by
  rw [getT_get h]
  simp only [List.get_eq_getElem]
  conv_lhs => rw [← List.take_append_drop j ch]
  rw [List.getElem_cons_drop]

/-- Inserting the index of a freshly appended child at the binary-search
position keeps the working vector consecutively non-decreasing. -/
theorem chain'_insert_at_search {ch : List UseTree} {vec : List Nat} {t : UseTree} {idx : Nat}
    (hfind : binSearch (fun k => path_cmp_bin_search (getT ch (vec.getD k 0)).path t.path)
      vec.length = .notFound idx)
    (hch : List.Chain' (fun i k => idxLe ch i k = true) vec)
    (hbound : ∀ i ∈ vec, i < ch.length)
    (hwf : ∀ i ∈ vec, neOpt (getT ch i).path = true)
    (hwt : neOpt t.path = true) :
    List.Chain' (fun i k => idxLe (ch ++ [t]) i k = true)
      (vec.insertIdx idx ch.length) := by
  have hmono := mono_of_state t hch hwf
  obtain ⟨hidxle, hlt, hgt⟩ := binSearch_notFound_spec hmono hfind
  apply chain'_insertIdx
  · apply chain'_imp_mem vec hch
    intro a ha b hb hab
    rw [idxLe_iff] at hab ⊢
    rw [getT_append_left (hbound a ha), getT_append_left (hbound b hb)]
    exact hab
  · intro k hk hkidx
    simp only [List.get_eq_getElem]
    have hfk := hlt k hkidx
    rw [List.getD_eq_getElem _ _ hk] at hfk
    have hmem : vec[k] ∈ vec := List.get_mem vec k hk
    rw [idxLe_iff, getT_append_left (hbound _ hmem), getT_append_last]
    have hfs := binCmp_lt_to_forSort_lt _ _ (hwf _ hmem) hwt hfk
    rw [hfs]
    simp
  · intro k hk hkidx
    simp only [List.get_eq_getElem]
    have hfk := hgt k hkidx hk
    rw [List.getD_eq_getElem _ _ hk] at hfk
    have hmem : vec[k] ∈ vec := List.get_mem vec k hk
    rw [idxLe_iff, getT_append_left (hbound _ hmem), getT_append_last]
    have hswap := path_cmp_bin_search_swap (getT ch vec[k]).path t.path
    rw [hfk] at hswap
    have hlt2 : path_cmp_bin_search t.path (getT ch vec[k]).path = .lt := hswap.symm
    have hfs := binCmp_lt_to_forSort_lt _ _ hwt (hwf _ hmem) hlt2
    rw [hfs]
    simp

theorem commonLen_pos_shape : ∀ {l1 l2 : List PathSeg}, 1 ≤ commonLen l1 l2 →
    ∃ a as b bs, l1 = a :: as ∧ l2 = b :: bs ∧ a.text = b.text := by
  intro l1 l2 h
  cases l1 with
  | nil => simp [commonLen] at h
  | cons a as =>
    cases l2 with
    | nil => simp [commonLen] at h
    | cons b bs =>
      refine ⟨a, as, b, bs, rfl, rfl, ?_⟩
      by_cases hab : a.text = b.text
      · exact hab
      · rw [commonLen, if_neg hab] at h
        omega

theorem text_self_wfb {b : PathSeg} (hw : b.wfb = true) (ht : b.text = "self") :
    b = PathSeg.selfKw := by
  cases b with
  | name s =>
    simp only [PathSeg.text] at ht
    subst ht
    simp [PathSeg.wfb] at hw
  | selfKw => rfl
  | superKw => simp [PathSeg.text] at ht
  | crateKw => simp [PathSeg.text] at ht

theorem selfWhole_head_self {p : UsePath} {xs : List PathSeg} (hw : p.wfSb = true)
    (hh : p.segs = PathSeg.selfKw :: xs) : p.segs = [PathSeg.selfKw] := by
  unfold UsePath.wfSb at hw
  rw [Bool.and_eq_true, Bool.and_eq_true] at hw
  have hsw := hw.2
  unfold UsePath.selfWholeb at hsw
  rw [Bool.or_eq_true] at hsw
  cases hsw with
  | inl h => rw [Bool.and_eq_true] at h; simpa using h.1
  | inr h =>
    rw [hh] at h
    simp [List.all_cons] at h

/-- When common_prefix succeeds and one side is the bare self path, both
sides are the bare self path and the prefixes are the whole paths. -/
theorem common_self_whole {lp rp lpre rpre : UsePath}
    (hlw : lp.wfSb = true) (hrw : rp.wfSb = true)
    (hc : commonPfx lp rp = some (lpre, rpre))
    (hself : lp.segs = [PathSeg.selfKw] ∨ rp.segs = [PathSeg.selfKw]) :
    lp.segs = [PathSeg.selfKw] ∧ rp.segs = [PathSeg.selfKw]
    ∧ lpre = lp ∧ rpre = rp := by
  obtain ⟨hcc, hn, hp, hq⟩ := commonPfx_spec hc
  obtain ⟨a, as, b, bs, h1, h2, hab⟩ := commonLen_pos_shape hn
  have hallW : ∀ (p : UsePath), p.wfSb = true → p.segs.all PathSeg.wfb = true := by
    intro p hpw
    unfold UsePath.wfSb at hpw
    rw [Bool.and_eq_true, Bool.and_eq_true] at hpw
    exact hpw.1.2
  have hboth : lp.segs = [PathSeg.selfKw] ∧ rp.segs = [PathSeg.selfKw] := by
    cases hself with
    | inl h =>
      refine ⟨h, ?_⟩
      rw [h] at h1
      have ha : a = PathSeg.selfKw := by cases h1; rfl
      have hbw : b.wfb = true := by
        have := hallW rp hrw
        rw [h2, List.all_cons, Bool.and_eq_true] at this
        exact this.1
      have hbt : b.text = "self" := by
        rw [← hab, ha]
        rfl
      have hb := text_self_wfb hbw hbt
      subst hb
      exact selfWhole_head_self hrw h2
    | inr h =>
      refine ⟨?_, h⟩
      rw [h] at h2
      have hb : b = PathSeg.selfKw := by cases h2; rfl
      have haw : a.wfb = true := by
        have := hallW lp hlw
        rw [h1, List.all_cons, Bool.and_eq_true] at this
        exact this.1
      have hat : a.text = "self" := by
        rw [hab, hb]
        rfl
      have ha := text_self_wfb haw hat
      subst ha
      exact selfWhole_head_self hlw h1
  have hcl : commonLen lp.segs rp.segs = 1 := by
    rw [hboth.1, hboth.2]
    show commonLen [PathSeg.selfKw] [PathSeg.selfKw] = 1
    simp [commonLen]
  refine ⟨hboth.1, hboth.2, ?_, ?_⟩
  · rw [hp, hcl, hboth.1]
    cases lp with
    | mk c s =>
      simp only at hboth
      rw [hboth.1]
      rfl
  · rw [hq, hcl, hboth.2]
    cases rp with
    | mk c s =>
      simp only at hboth
      rw [hboth.2]
      rfl

/-! Denotation facts for the flattening fallback. -/

theorem stripCC_sub (t : UseTree) : (stripCC t).sub = t.sub := by
  cases t with
  | mk a p g s => cases p <;> rfl

theorem leading_none {t : UseTree} (h : t.path = none) :
    leading_coloncolon t = t.tcc := by
  unfold leading_coloncolon
  rw [h]

theorem extCC_path_none {t : UseTree} (h : t.path = none) (cc : Bool) :
    extCC cc t = (cc || t.tcc) := by
  unfold extCC
  rw [h]

theorem extPre_path_none {t : UseTree} (h : t.path = none) (pre : List PathSeg) :
    extPre pre t = pre := by
  unfold extPre
  rw [h]
  simp

theorem denote_cc_of_leading {t : UseTree} (h : leading_coloncolon t = true)
    (c c' : Bool) (pre : List PathSeg) : denoteTree c pre t = denoteTree c' pre t := by
  cases t with
  | mk a p g s =>
    unfold denoteTree
    cases p with
    | some q =>
      have hq : q.cc = true := h
      dsimp only
      rw [hq]
      simp
    | none =>
      have ha : a = true := h
      dsimp only
      rw [ha]
      simp

theorem denote_stripCC_true (t : UseTree) (pre : List PathSeg) :
    denoteTree true pre (stripCC t) = denoteTree true pre t := by
  cases t with
  | mk a p g s =>
    cases p with
    | some q =>
      show denoteTree true pre (UseTree.mk a (some ⟨false, q.segs⟩) g s)
        = denoteTree true pre (UseTree.mk a (some q) g s)
      unfold denoteTree
      dsimp only
      simp
    | none =>
      show denoteTree true pre (UseTree.mk false none g s)
        = denoteTree true pre (UseTree.mk a none g s)
      unfold denoteTree
      dsimp only
      simp

/-- Denotation of one side's entry list in merge_trees_into_one: under the
group's leading-:: flag the entries denote exactly the original tree. -/
theorem flatten_side {x : UseTree} {bo : Bool} {ls : List UseTree}
    (hE : (if (x.path.isSome || (leading_coloncolon x && !bo)) = true
           then some [if (leading_coloncolon x && bo) = true then stripCC x else x]
           else match (if (leading_coloncolon x && bo) = true then stripCC x else x).sub with
             | some l => some l
             | none => none) = some ls) (a : Item) :
    a ∈ denoteTreeList (leading_coloncolon x && bo) [] ls ↔ a ∈ denoteTree false [] x := by
  split at hE
  · injection hE with hE
    subst hE
    rw [denoteTreeList_cons, denoteTreeList_nil, List.append_nil]
    by_cases hb : (leading_coloncolon x && bo) = true
    · rw [if_pos hb, hb, denote_stripCC_true]
      have hlead : leading_coloncolon x = true := by
        rw [Bool.and_eq_true] at hb
        exact hb.1
      rw [denote_cc_of_leading hlead true false]
    · have hb' : (leading_coloncolon x && bo) = false := by
        revert hb
        cases leading_coloncolon x && bo <;> simp
      rw [if_neg hb, hb']
  · rename_i hc
    have hps : x.path.isSome = false := by
      revert hc
      cases hp : x.path.isSome <;> simp
    have hcc2 : (leading_coloncolon x && !bo) = false := by
      revert hc
      cases h2 : leading_coloncolon x && !bo <;> simp [hps]
    have hbb : (leading_coloncolon x && bo) = leading_coloncolon x := by
      cases hlx : leading_coloncolon x with
      | false => simp
      | true =>
        rw [hlx] at hcc2
        simp at hcc2
        rw [hcc2]
        rfl
    have hpn : x.path = none := by
      cases hp : x.path with
      | none => rfl
      | some q => rw [hp] at hps; simp at hps
    split at hE
    · rename_i l heq
      injection hE with hE
      subst hE
      have hsub : x.sub = some l := by
        rw [← heq]
        by_cases hb : (leading_coloncolon x && bo) = true
        · rw [if_pos hb, stripCC_sub]
        · rw [if_neg hb]
      rw [denoteTree_sub_some hsub, extCC_path_none hpn, extPre_path_none hpn, hbb,
        leading_none hpn]
      simp
    · cases hE

/-- The flattening fallback preserves the denoted path set exactly: the
produced group denotes the union of the two inputs. -/
theorem merge_into_one_denote {lhs rhs out : UseTree} {m : MergeBehavior}
    (h : merge_trees_into_one lhs rhs m = some out) (a : Item) :
    a ∈ denoteTree false [] out
      ↔ (a ∈ denoteTree false [] lhs ∨ a ∈ denoteTree false [] rhs) := by
  unfold merge_trees_into_one at h
  split at h
  · cases h
  · dsimp only at h
    split at h
    · rename_i ls rs hls hrs
      injection h with h
      subst h
      have hsub0 : (UseTree.mk (leading_coloncolon lhs && leading_coloncolon rhs)
          none false (some (ls ++ rs))).sub = some (ls ++ rs) := rfl
      have hpn0 : (UseTree.mk (leading_coloncolon lhs && leading_coloncolon rhs)
          none false (some (ls ++ rs))).path = none := rfl
      rw [denoteTree_sub_some hsub0]
      rw [extCC_path_none hpn0, extPre_path_none hpn0]
      show a ∈ denoteTreeList
          (false || (leading_coloncolon lhs && leading_coloncolon rhs)) [] (ls ++ rs) ↔ _
      rw [Bool.false_or, denoteTreeList_append, List.mem_append]
      rw [flatten_side hls a]
      rw [Bool.and_comm (leading_coloncolon lhs) (leading_coloncolon rhs)] at hrs ⊢
      rw [flatten_side hrs a]
    · rename_i hne
      cases h

/-! Invariants of the recursive merge engine, proved by induction on the
fuel.  The four spec predicates state, for each of the four mutually
recursive functions, preservation of strong well-formedness, of the sorted
working vector, and of the denoted path set. -/

def AllWfS (l : List UseTree) : Prop := ∀ c ∈ l, c.wfS = true

def VecBound (ch : List UseTree) (vec : List Nat) : Prop := ∀ i ∈ vec, i < ch.length

def VecChain (ch : List UseTree) (vec : List Nat) : Prop :=
  List.Chain' (fun i k => idxLe ch i k = true) vec

def MCspec (fuel : Nat) : Prop :=
  ∀ (m : MergeBehavior) (ch : List UseTree) (vec : List Nat) (t : UseTree)
    (ok : Bool) (ch' : List UseTree) (vec' : List Nat) (t' : UseTree),
    merge_child fuel m (ch, vec) t = (ok, (ch', vec'), t') →
    AllWfS ch → t.wfS = true → VecBound ch vec → VecChain ch vec →
    (AllWfS ch' ∧ t'.wfS = true ∧ VecBound ch' vec' ∧ VecChain ch' vec')
    ∧ (∀ cc pre a, a ∈ denoteTree cc pre t' ↔ a ∈ denoteTree cc pre t)
    ∧ (∀ cc pre a, (a ∈ denoteTreeList cc pre ch' ∨ a ∈ denoteTree cc pre t')
        ↔ (a ∈ denoteTreeList cc pre ch ∨ a ∈ denoteTree cc pre t))
    ∧ (ok = true → ∀ cc pre a, a ∈ denoteTree cc pre t' → a ∈ denoteTreeList cc pre ch')

def PCspec (fuel : Nat) : Prop :=
  ∀ (m : MergeBehavior) (ch : List UseTree) (vec : List Nat) (ts : List UseTree)
    (ok : Bool) (ch' : List UseTree) (vec' : List Nat) (ts' : List UseTree),
    process_children fuel m (ch, vec) ts = (ok, (ch', vec'), ts') →
    AllWfS ch → AllWfS ts → VecBound ch vec → VecChain ch vec →
    (AllWfS ch' ∧ AllWfS ts' ∧ VecBound ch' vec' ∧ VecChain ch' vec')
    ∧ (∀ cc pre a, a ∈ denoteTreeList cc pre ts' ↔ a ∈ denoteTreeList cc pre ts)
    ∧ (∀ cc pre a, (a ∈ denoteTreeList cc pre ch' ∨ a ∈ denoteTreeList cc pre ts')
        ↔ (a ∈ denoteTreeList cc pre ch ∨ a ∈ denoteTreeList cc pre ts))
    ∧ (ok = true → ∀ cc pre a, a ∈ denoteTreeList cc pre ch'
        ↔ (a ∈ denoteTreeList cc pre ch ∨ a ∈ denoteTreeList cc pre ts))

def STspec (fuel : Nat) : Prop :=
  ∀ (lhs rhs : UseTree) (m : MergeBehavior)
    (ok : Bool) (ch' : List UseTree) (vec' : List Nat) (rhs' : UseTree),
    recursive_merge_st fuel lhs rhs m = (ok, (ch', vec'), rhs') →
    AllWfS lhs.children → AllWfS rhs.children →
    (AllWfS ch' ∧ AllWfS rhs'.children ∧ VecBound ch' vec' ∧ VecChain ch' vec')
    ∧ (rhs'.tcc = rhs.tcc ∧ rhs'.path = rhs.path ∧ rhs'.glob = rhs.glob
        ∧ (rhs'.sub.isSome = rhs.sub.isSome))
    ∧ (rhs.sub = none → ch' = lhs.children ∧ rhs' = rhs)
    ∧ (∀ cc pre a, a ∈ denoteTreeList cc pre rhs'.children
        ↔ a ∈ denoteTreeList cc pre rhs.children)
    ∧ (∀ cc pre a, (a ∈ denoteTreeList cc pre ch' ∨ a ∈ denoteTreeList cc pre rhs'.children)
        ↔ (a ∈ denoteTreeList cc pre lhs.children ∨ a ∈ denoteTreeList cc pre rhs.children))
    ∧ (ok = true → ∀ cc pre a, a ∈ denoteTreeList cc pre ch'
        ↔ (a ∈ denoteTreeList cc pre lhs.children ∨ a ∈ denoteTreeList cc pre rhs.children))

def RMspec (fuel : Nat) : Prop :=
  ∀ (lhs rhs : UseTree) (q : UsePath) (m : MergeBehavior)
    (ok : Bool) (lhs' rhs' : UseTree),
    recursive_merge fuel lhs rhs m = (ok, lhs', rhs') →
    lhs.wfS = true → rhs.wfS = true →
    lhs.path = some q → rhs.path = some q →
    ((lhs.sub.isSome = true ∧ rhs.sub.isSome = true)
      ∨ (lhs.sub = none ∧ rhs.sub = none ∧ lhs.glob = false ∧ rhs.glob = false)) →
    (lhs'.path = lhs.path ∧ lhs'.wfS = true ∧ rhs'.wfS = true)
    ∧ (∀ cc pre a, a ∈ denoteTree cc pre rhs' ↔ a ∈ denoteTree cc pre rhs)
    ∧ (∀ cc pre a, (a ∈ denoteTree cc pre lhs' ∨ a ∈ denoteTree cc pre rhs')
        ↔ (a ∈ denoteTree cc pre lhs ∨ a ∈ denoteTree cc pre rhs))
    ∧ (ok = true → ∀ cc pre a, a ∈ denoteTree cc pre lhs'
        ↔ (a ∈ denoteTree cc pre lhs ∨ a ∈ denoteTree cc pre rhs))

/-- The no-change conclusion bundle of the merge-child spec. -/
theorem mc_trivial {ch : List UseTree} {vec : List Nat} {t : UseTree}
    (hch : AllWfS ch) (ht : t.wfS = true) (hb : VecBound ch vec) (hc : VecChain ch vec) :
    (AllWfS ch ∧ t.wfS = true ∧ VecBound ch vec ∧ VecChain ch vec)
    ∧ (∀ cc pre a, a ∈ denoteTree cc pre t ↔ a ∈ denoteTree cc pre t)
    ∧ (∀ cc pre a, (a ∈ denoteTreeList cc pre ch ∨ a ∈ denoteTree cc pre t)
        ↔ (a ∈ denoteTreeList cc pre ch ∨ a ∈ denoteTree cc pre t))
    ∧ (false = true → ∀ cc pre a, a ∈ denoteTree cc pre t → a ∈ denoteTreeList cc pre ch) :=
  ⟨⟨hch, ht, hb, hc⟩, fun _ _ _ => Iff.rfl, fun _ _ _ => Iff.rfl, fun h => by cases h⟩

theorem mc_spec_zero : MCspec 0 := by
  intro m ch vec t ok ch' vec' t' h hch ht hb hc
  have h' : ((false, (ch, vec), t) : Bool × MState × UseTree) = (ok, (ch', vec'), t') := h
  simp only [Prod.mk.injEq] at h'
  obtain ⟨rfl, ⟨rfl, rfl⟩, rfl⟩ := h'
  exact mc_trivial hch ht hb hc

theorem pc_spec_zero : PCspec 0 := by
  intro m ch vec ts ok ch' vec' ts' h hch hts hb hc
  have h' : ((false, (ch, vec), ts) : Bool × MState × List UseTree)
      = (ok, (ch', vec'), ts') := h
  simp only [Prod.mk.injEq] at h'
  obtain ⟨rfl, ⟨rfl, rfl⟩, rfl⟩ := h'
  refine ⟨⟨hch, hts, hb, hc⟩, fun _ _ _ => Iff.rfl, fun _ _ _ => Iff.rfl, fun h2 => by cases h2⟩

theorem st_spec_zero : STspec 0 := by
  intro lhs rhs m ok ch' vec' rhs' h hlc hrc
  have h' : ((false, (lhs.children, []), rhs) : Bool × MState × UseTree)
      = (ok, (ch', vec'), rhs') := h
  simp only [Prod.mk.injEq] at h'
  obtain ⟨rfl, ⟨rfl, rfl⟩, rfl⟩ := h'
  refine ⟨⟨hlc, hrc, ?_, ?_⟩, ⟨rfl, rfl, rfl, rfl⟩, fun _ => ⟨rfl, rfl⟩,
    fun _ _ _ => Iff.rfl, fun _ _ _ => Iff.rfl, fun h2 => by cases h2⟩
  · intro i hi
    simp at hi
  · exact List.chain'_nil

theorem rm_spec_zero : RMspec 0 := by
  intro lhs rhs q m ok lhs' rhs' h hl hr hlp hrp hmatch
  have h' : ((false, lhs, rhs) : Bool × UseTree × UseTree) = (ok, lhs', rhs') := h
  simp only [Prod.mk.injEq] at h'
  obtain ⟨rfl, rfl, rfl⟩ := h'
  exact ⟨⟨rfl, hl, hr⟩, fun _ _ _ => Iff.rfl, fun _ _ _ => Iff.rfl, fun h2 => by cases h2⟩

theorem withSub_children (t : UseTree) (l : List UseTree) :
    (t.withSub (some l)).children = l := by
  unfold UseTree.children
  rw [withSub_sub]
  rfl

theorem children_of_sub_some {t : UseTree} {l : List UseTree} (h : t.sub = some l) :
    t.children = l := by
  unfold UseTree.children
  rw [h]
  rfl

theorem children_of_sub_none {t : UseTree} (h : t.sub = none) : t.children = [] := by
  unfold UseTree.children
  rw [h]
  rfl

/-- Induction step for recursive_merge at the state level: the policy check,
the initial sort of the working vector, and the loop over the rhs children. -/
theorem st_spec_succ (fuel : Nat) (hpc : PCspec fuel) : STspec (fuel + 1) := by
  intro lhs rhs m ok ch' vec' rhs' h hlc hrc
  unfold recursive_merge_st at h
  dsimp only at h
  split at h
  · rename_i hall
    split at h
    · rename_i hsub
      have h' : ((true, (lhs.children, sortIdx lhs.children), rhs)
          : Bool × MState × UseTree) = (ok, (ch', vec'), rhs') := h
      simp only [Prod.mk.injEq] at h'
      obtain ⟨rfl, ⟨rfl, rfl⟩, rfl⟩ := h'
      refine ⟨⟨hlc, hrc, ?_, ?_⟩, ⟨rfl, rfl, rfl, rfl⟩, fun _ => ⟨rfl, rfl⟩,
        fun _ _ _ => Iff.rfl, fun _ _ _ => Iff.rfl, ?_⟩
      · intro i hi
        exact mem_sortIdx hi
      · exact chain'_sortIdx _
      · intro _ cc pre a
        rw [children_of_sub_none hsub, denoteTreeList_nil]
        simp
    · rename_i rcs hsub
      rcases heq : process_children fuel m (lhs.children, sortIdx lhs.children) rcs
        with ⟨ok1, ⟨ch1, vec1⟩, rcs1⟩
      rw [heq] at h
      dsimp only at h
      have h' : ((ok1, (ch1, vec1), rhs.withSub (some rcs1))
          : Bool × MState × UseTree) = (ok, (ch', vec'), rhs') := h
      simp only [Prod.mk.injEq] at h'
      obtain ⟨rfl, ⟨rfl, rfl⟩, rfl⟩ := h'
      have hrc2 : AllWfS rcs := by
        rw [children_of_sub_some hsub] at hrc
        exact hrc
      have hbound : VecBound lhs.children (sortIdx lhs.children) := by
        intro i hi
        exact mem_sortIdx hi
      obtain ⟨⟨hc1, hc2, hc3, hc4⟩, hd1, hd2, hd3⟩ :=
        hpc m lhs.children (sortIdx lhs.children) rcs ok1 ch1 vec1 rcs1 heq hlc hrc2
          hbound (chain'_sortIdx _)
      rw [children_of_sub_some hsub]
      rw [withSub_children]
      refine ⟨⟨hc1, hc2, hc3, hc4⟩,
        ⟨withSub_tcc rhs _, withSub_path rhs _, withSub_glob rhs _, ?_⟩, ?_, hd1, hd2, hd3⟩
      · rw [withSub_sub, hsub]
        rfl
      · intro hn
        rw [hsub] at hn
        cases hn
  · rename_i hall
    have h' : ((false, (lhs.children, []), rhs) : Bool × MState × UseTree)
        = (ok, (ch', vec'), rhs') := h
    simp only [Prod.mk.injEq] at h'
    obtain ⟨rfl, ⟨rfl, rfl⟩, rfl⟩ := h'
    refine ⟨⟨hlc, hrc, ?_, List.chain'_nil⟩, ⟨rfl, rfl, rfl, rfl⟩, fun _ => ⟨rfl, rfl⟩,
      fun _ _ _ => Iff.rfl, fun _ _ _ => Iff.rfl, fun h2 => by cases h2⟩
    intro i hi
    simp at hi

set_option maxHeartbeats 2000000 in
/-- Induction step for the loop over the rhs children. -/
theorem pc_spec_succ (fuel : Nat) (hmc : MCspec fuel) (hpc : PCspec fuel) :
    PCspec (fuel + 1) := by
  intro m ch vec ts ok ch' vec' ts' h hch hts hb hc
  cases ts with
  | nil =>
    have h' : ((true, (ch, vec), ([] : List UseTree)) : Bool × MState × List UseTree)
        = (ok, (ch', vec'), ts') := h
    simp only [Prod.mk.injEq] at h'
    obtain ⟨rfl, ⟨rfl, rfl⟩, rfl⟩ := h'
    refine ⟨⟨hch, hts, hb, hc⟩, fun _ _ _ => Iff.rfl, fun _ _ _ => Iff.rfl, ?_⟩
    intro _ cc pre a
    rw [denoteTreeList_nil]
    simp
  | cons t ts0 =>
    unfold process_children at h
    rcases hMC : merge_child fuel m (ch, vec) t with ⟨ok1, ⟨ch1, vec1⟩, t1⟩
    rw [hMC] at h
    dsimp only at h
    obtain ⟨⟨hw1, hw2, hw3, hw4⟩, hm3, hm1, hm2⟩ :=
      hmc m ch vec t ok1 ch1 vec1 t1 hMC hch (hts t (by simp)) hb hc
    have hts0 : AllWfS ts0 := fun c hc2 => hts c (by simp [hc2])
    by_cases hok1 : ok1 = true
    · rw [if_pos hok1] at h
      rcases hPC : process_children fuel m (ch1, vec1) ts0 with ⟨ok2, ⟨ch2, vec2⟩, ts2⟩
      rw [hPC] at h
      dsimp only at h
      have h' : ((ok2, (ch2, vec2), t1 :: ts2) : Bool × MState × List UseTree)
          = (ok, (ch', vec'), ts') := h
      simp only [Prod.mk.injEq] at h'
      obtain ⟨rfl, ⟨rfl, rfl⟩, rfl⟩ := h'
      obtain ⟨⟨hx1, hx2, hx3, hx4⟩, hp6, hp4, hp5⟩ :=
        hpc m ch1 vec1 ts0 ok2 ch2 vec2 ts2 hPC hw1 hts0 hw3 hw4
      refine ⟨⟨hx1, ?_, hx3, hx4⟩, ?_, ?_, ?_⟩
      · intro c hc2
        rcases List.mem_cons.1 hc2 with rfl | hmem
        · exact hw2
        · exact hx2 c hmem
      · intro cc pre a
        rw [denoteTreeList_cons, denoteTreeList_cons]
        simp only [List.mem_append]
        rw [hm3 cc pre a, hp6 cc pre a]
      · intro cc pre a
        rw [denoteTreeList_cons, denoteTreeList_cons]
        simp only [List.mem_append]
        have hA := hm1 cc pre a
        have hB := hp4 cc pre a
        have hC := hm3 cc pre a
        tauto
      · intro hok cc pre a
        rw [denoteTreeList_cons]
        simp only [List.mem_append]
        have hset : ∀ b, b ∈ denoteTreeList cc pre ch1
            ↔ (b ∈ denoteTreeList cc pre ch ∨ b ∈ denoteTree cc pre t) := by
          intro b
          constructor
          · intro hb2
            exact (hm1 cc pre b).1 (Or.inl hb2)
          · intro hb2
            rcases (hm1 cc pre b).2 hb2 with h3 | h3
            · exact h3
            · exact hm2 hok1 cc pre b h3
        have hB := hp5 hok cc pre a
        rw [hB, hset a]
        tauto
    · rw [if_neg hok1] at h
      have h' : ((false, (ch1, vec1), t1 :: ts0) : Bool × MState × List UseTree)
          = (ok, (ch', vec'), ts') := h
      simp only [Prod.mk.injEq] at h'
      obtain ⟨rfl, ⟨rfl, rfl⟩, rfl⟩ := h'
      refine ⟨⟨hw1, ?_, hw3, hw4⟩, ?_, ?_, fun h2 => by cases h2⟩
      · intro c hc2
        rcases List.mem_cons.1 hc2 with rfl | hmem
        · exact hw2
        · exact hts0 c hmem
      · intro cc pre a
        rw [denoteTreeList_cons, denoteTreeList_cons]
        simp only [List.mem_append]
        rw [hm3 cc pre a]
      · intro cc pre a
        rw [denoteTreeList_cons, denoteTreeList_cons]
        simp only [List.mem_append]
        have hA := hm1 cc pre a
        have hC := hm3 cc pre a
        tauto

theorem extCC_congr {t u : UseTree} (hp : u.path = t.path) (ht : u.tcc = t.tcc) (cc : Bool) :
    extCC cc u = extCC cc t := by
  unfold extCC
  rw [hp, ht]

theorem extPre_congr {t u : UseTree} (hp : u.path = t.path) (pre : List PathSeg) :
    extPre pre u = extPre pre t := by
  unfold extPre
  rw [hp]

/-- Strong well-formedness transfers to any tree with the same path, glob
and sub-presence whose children are all strongly well-formed. -/
theorem wfS_congr_shape {t u : UseTree} (hw : t.wfS = true)
    (hp : u.path = t.path) (hss : u.sub.isSome = t.sub.isSome) (hg : u.glob = t.glob)
    (hch : ∀ c ∈ u.children, c.wfS = true) : u.wfS = true := by
  cases t with
  | mk a0 p0 g0 s0 =>
    cases u with
    | mk a p g s =>
      simp only [UseTree.path] at hp
      simp only [UseTree.sub] at hss
      simp only [UseTree.glob] at hg
      subst hp
      subst hg
      obtain ⟨hq, hleaf, _⟩ := wfS_destruct _ hw
      apply wfS_build
      · intro q0 hq0
        exact hq q0 hq0
      · unfold selfLeafOkb
        simp only [UseTree.path]
        cases p with
        | none => rfl
        | some q0 =>
          show (if q0.segs = [PathSeg.selfKw]
              then (UseTree.mk a (some q0) g s).sub.isNone
                && !(UseTree.mk a (some q0) g s).glob
              else true) = true
          unfold selfLeafOkb at hleaf
          have hleaf2 : (if q0.segs = [PathSeg.selfKw]
              then s0.isNone && !g else true) = true := hleaf
          by_cases hq0s : q0.segs = [PathSeg.selfKw]
          · rw [if_pos hq0s]
            rw [if_pos hq0s, Bool.and_eq_true] at hleaf2
            simp only [UseTree.sub, UseTree.glob]
            rw [Bool.and_eq_true]
            refine ⟨?_, hleaf2.2⟩
            have hs0 : s0.isSome = false := by
              cases hs02 : s0 with
              | none => rfl
              | some l2 =>
                rw [hs02] at hleaf2
                simp at hleaf2
            rw [hs0] at hss
            cases s with
            | none => rfl
            | some l2 => simp at hss
          · rw [if_neg hq0s]
      · intro l2 hl2 c hc2
        apply hch
        simp only [UseTree.children, UseTree.sub, hl2]
        simpa using hc2

/-- Induction step for recursive_merge at the tree level: rebuilding the lhs
node from the final state preserves well-formedness and the denoted set. -/
theorem rm_spec_succ (fuel : Nat) (hst : STspec fuel) : RMspec (fuel + 1) := by
  intro lhs rhs q m ok lhs' rhs' h hl hr hlp hrp hmatch
  unfold recursive_merge at h
  rcases hST : recursive_merge_st fuel lhs rhs m with ⟨ok1, ⟨ch1, vec1⟩, rhs1⟩
  rw [hST] at h
  dsimp only at h
  have h' : ((ok1, lhs.withChildren ch1, rhs1) : Bool × UseTree × UseTree)
      = (ok, lhs', rhs') := h
  simp only [Prod.mk.injEq] at h'
  obtain ⟨rfl, rfl, rfl⟩ := h'
  have hlc : AllWfS lhs.children := (wfS_destruct lhs hl).2.2
  have hrc : AllWfS rhs.children := (wfS_destruct rhs hr).2.2
  obtain ⟨⟨hs1, hs2, hs3, hs4⟩, ⟨ht1, ht2, ht3, ht4⟩, hnone, hd6, hd4, hd5⟩ :=
    hst lhs rhs m ok1 ch1 vec1 rhs1 hST hlc hrc
  cases hrs : rhs.sub with
  | none =>
    obtain ⟨hch1, hrhs1⟩ := hnone hrs
    subst hch1
    subst hrhs1
    rw [withChildren_self]
    rcases hmatch with ⟨h1, h2⟩ | ⟨h1, h2, h3, h4⟩
    · rw [hrs] at h2
      simp at h2
    · refine ⟨⟨rfl, hl, hr⟩, fun _ _ _ => Iff.rfl, fun _ _ _ => Iff.rfl, ?_⟩
      intro _ cc pre a
      have hL := bare_item h1 h3 cc pre a
      have hR := bare_item h2 h4 cc pre a
      obtain ⟨he1, he2⟩ := ext_eq_of_path_eq hlp hrp cc pre
      rw [hL, hR, he1, he2]
      tauto
  | some rcs =>
    have hlsome : lhs.sub.isSome = true := by
      rcases hmatch with ⟨h1, _⟩ | ⟨h1, h2, _⟩
      · exact h1
      · rw [hrs] at h2
        cases h2
    obtain ⟨lcs, hls⟩ := Option.isSome_iff_exists.1 hlsome
    rw [withChildren_of_sub_some hls]
    have hr1some : rhs1.sub.isSome = true := by
      rw [ht4, hrs]
      rfl
    obtain ⟨rcs1, hr1s⟩ := Option.isSome_iff_exists.1 hr1some
    have hr1ch : rhs1.children = rcs1 := children_of_sub_some hr1s
    have hlch : lhs.children = lcs := children_of_sub_some hls
    have hrch : rhs.children = rcs := children_of_sub_some hrs
    have hLd : ∀ cc pre, denoteTree cc pre (lhs.withSub (some ch1))
        = denoteTreeList (extCC cc lhs) (extPre pre lhs) ch1 := by
      intro cc pre
      rw [denoteTree_sub_some (withSub_sub lhs (some ch1)) cc pre,
        extCC_congr (withSub_path lhs _) (withSub_tcc lhs _) cc,
        extPre_congr (withSub_path lhs _) pre]
    have hL0 : ∀ cc pre, denoteTree cc pre lhs
        = denoteTreeList (extCC cc lhs) (extPre pre lhs) lhs.children := by
      intro cc pre
      rw [denoteTree_sub_some hls cc pre, hlch]
    have hR0 : ∀ cc pre, denoteTree cc pre rhs
        = denoteTreeList (extCC cc lhs) (extPre pre lhs) rhs.children := by
      intro cc pre
      obtain ⟨he1, he2⟩ := ext_eq_of_path_eq hlp hrp cc pre
      rw [denoteTree_sub_some hrs cc pre, hrch, he1, he2]
    have hR1 : ∀ cc pre, denoteTree cc pre rhs1
        = denoteTreeList (extCC cc lhs) (extPre pre lhs) rhs1.children := by
      intro cc pre
      obtain ⟨he1, he2⟩ := ext_eq_of_path_eq hlp hrp cc pre
      rw [denoteTree_sub_some hr1s cc pre, hr1ch,
        extCC_congr ht2 ht1 cc, extPre_congr ht2 pre, he1, he2]
    refine ⟨⟨withSub_path lhs _, ?_, ?_⟩, ?_, ?_, ?_⟩
    · apply wfS_congr_shape hl (withSub_path lhs _) ?_ (withSub_glob lhs _) ?_
      · rw [withSub_sub, hls]
        rfl
      · rw [withSub_children]
        exact hs1
    · apply wfS_congr_shape hr ht2 ?_ ht3 hs2
      rw [ht4]
    · intro cc pre a
      rw [hR1 cc pre, hR0 cc pre]
      exact hd6 (extCC cc lhs) (extPre pre lhs) a
    · intro cc pre a
      rw [hR1 cc pre, hR0 cc pre, hL0 cc pre, hLd cc pre]
      exact hd4 (extCC cc lhs) (extPre pre lhs) a
    · intro hok cc pre a
      rw [hR0 cc pre, hL0 cc pre, hLd cc pre]
      exact hd5 hok (extCC cc lhs) (extPre pre lhs) a

theorem contains_self_of_leaf {t : UseTree} (hs : t.sub = none) (hg : t.glob = false) :
    tree_contains_self t = none := by
  unfold tree_contains_self
  rw [hs, hg]
  rfl

theorem wfSb_all_wfb {p : UsePath} (h : p.wfSb = true) :
    p.segs.all PathSeg.wfb = true := by
  unfold UsePath.wfSb at h
  rw [Bool.and_eq_true, Bool.and_eq_true] at h
  exact h.1.2

theorem is_simple_of_leaf {t : UseTree} (hs : t.sub = none) (hg : t.glob = false) :
    t.is_simple_path = true := by
  unfold UseTree.is_simple_path
  rw [hs, hg]
  rfl

theorem is_simple_destruct {t : UseTree} (h : t.is_simple_path = true) :
    t.sub = none ∧ t.glob = false := by
  unfold UseTree.is_simple_path at h
  rw [Bool.and_eq_true] at h
  constructor
  · cases hs : t.sub with
    | none => rfl
    | some l => rw [hs] at h; simp at h
  · cases hg : t.glob with
    | false => rfl
    | true => rw [hg] at h; simp at h

theorem mem_dTL_set {ch : List UseTree} {j : Nat} (hj : j < ch.length) (u : UseTree)
    (cc : Bool) (pre : List PathSeg) (a : Item) :
    a ∈ denoteTreeList cc pre (ch.set j u)
      ↔ (a ∈ denoteTree cc pre u
        ∨ (a ∈ denoteTreeList cc pre (ch.take j)
            ∨ a ∈ denoteTreeList cc pre (ch.drop (j+1)))) := by
  rw [set_decomp hj, denoteTreeList_append, denoteTreeList_cons, List.mem_append,
    List.mem_append]
  tauto

theorem mem_dTL_at {ch : List UseTree} {j : Nat} (hj : j < ch.length)
    (cc : Bool) (pre : List PathSeg) (a : Item) :
    a ∈ denoteTreeList cc pre ch
      ↔ (a ∈ denoteTree cc pre (getT ch j)
        ∨ (a ∈ denoteTreeList cc pre (ch.take j)
            ∨ a ∈ denoteTreeList cc pre (ch.drop (j+1)))) := by
  conv_lhs => rw [self_decomp hj]
  rw [denoteTreeList_append, denoteTreeList_cons, List.mem_append, List.mem_append]
  tauto

set_option maxHeartbeats 4000000 in
/-- Induction step for one loop iteration of recursive_merge over a rhs
child: the eligibility guard, the binary search, the three dedup rules, the
split-and-recurse step and the append-and-insert step all preserve strong
well-formedness, the sorted working vector, and the denoted path set. -/
theorem mc_spec_succ (fuel : Nat) (hrm : RMspec fuel) : MCspec (fuel + 1) := by
  intro m ch vec t ok ch' vec' t' h hch ht hb hc
  unfold merge_child at h
  split at h
  · have h' : ((false, (ch, vec), t) : Bool × MState × UseTree) = (ok, (ch', vec'), t') := h
    simp only [Prod.mk.injEq] at h'
    obtain ⟨rfl, ⟨rfl, rfl⟩, rfl⟩ := h'
    exact mc_trivial hch ht hb hc
  · rename_i hallow
    split at h
    · rename_i idx hfind
      dsimp only at h
      have hidx : idx < vec.length := binSearch_found_lt hfind
      have hjmem : vec.getD idx 0 ∈ vec := by
        rw [List.getD_eq_getElem _ _ hidx]
        exact List.get_mem vec idx hidx
      have hjlt : vec.getD idx 0 < ch.length := hb _ hjmem
      have hltmem : getT ch (vec.getD idx 0) ∈ ch := by
        rw [getT_get hjlt]
        exact List.get_mem ch _ _
      have hlw : (getT ch (vec.getD idx 0)).wfS = true := hch _ hltmem
      split at h
      · rename_i lp rp hlpath hrpath
        have hlpw : lp.wfSb = true := (wfS_destruct _ hlw).1 lp hlpath
        have hrpw : rp.wfSb = true := (wfS_destruct t ht).1 rp hrpath
        split at h
        · rename_i hcp
          have h' : ((false, (ch, vec), t) : Bool × MState × UseTree)
              = (ok, (ch', vec'), t') := h
          simp only [Prod.mk.injEq] at h'
          obtain ⟨rfl, ⟨rfl, rfl⟩, rfl⟩ := h'
          exact mc_trivial hch ht hb hc
        · rename_i lpre rpre hcp
          have hpair : lpre = rpre :=
            commonPfx_pair_eq (wfSb_all_wfb hlpw) (wfSb_all_wfb hrpw) hcp
          split at h
          · rename_i r hded
            split at hded
            · rename_i hpre
              have hlr : lp = rp := by
                rw [← hpre.1, hpair, hpre.2]
              have he1 : ∀ cc : Bool, extCC cc t = extCC cc (getT ch (vec.getD idx 0)) := by
                intro cc
                rw [extCC_path_some hrpath, extCC_path_some hlpath, hlr]
              have he2 : ∀ pre : List PathSeg,
                  extPre pre t = extPre pre (getT ch (vec.getD idx 0)) := by
                intro pre
                rw [extPre_path_some hrpath, extPre_path_some hlpath, hlr]
              split at hded
              · rename_i hcsl hcsr
                injection hded with hded
                subst hded
                have h' : ((true, (ch, vec), t) : Bool × MState × UseTree)
                    = (ok, (ch', vec'), t') := h
                simp only [Prod.mk.injEq] at h'
                obtain ⟨rfl, ⟨rfl, rfl⟩, rfl⟩ := h'
                refine ⟨⟨hch, ht, hb, hc⟩, fun _ _ _ => Iff.rfl, fun _ _ _ => Iff.rfl, ?_⟩
                intro _ cc pre a ha
                obtain ⟨hts, htg⟩ := contains_self_none hcsr
                rw [bare_item hts htg cc pre a] at ha
                subst ha
                rw [mem_denoteTreeList]
                refine ⟨getT ch (vec.getD idx 0), hltmem, ?_⟩
                rw [he1 cc, he2 pre]
                exact contains_self_item hlw hcsl cc pre
              · rename_i hcsl hcsr
                injection hded with hded
                subst hded
                have h' : ((true, (ch.set (vec.getD idx 0) t, vec), t)
                    : Bool × MState × UseTree) = (ok, (ch', vec'), t') := h
                simp only [Prod.mk.injEq] at h'
                obtain ⟨rfl, ⟨rfl, rfl⟩, rfl⟩ := h'
                obtain ⟨hls, hlg⟩ := contains_self_none hcsl
                have hsub : ∀ cc pre a, a ∈ denoteTree cc pre (getT ch (vec.getD idx 0)) →
                    a ∈ denoteTree cc pre t := by
                  intro cc pre a ha
                  rw [bare_item hls hlg cc pre a] at ha
                  subst ha
                  rw [← he1 cc, ← he2 pre]
                  exact contains_self_item ht hcsr cc pre
                refine ⟨⟨?_, ht, ?_, ?_⟩, fun _ _ _ => Iff.rfl, ?_, ?_⟩
                · intro c hcm
                  rcases List.mem_or_eq_of_mem_set hcm with hcm2 | rfl
                  · exact hch c hcm2
                  · exact ht
                · intro i hi
                  rw [List.length_set]
                  exact hb i hi
                · apply chain'_vec_set hc ?_ (path_cmp_for_sort_refl_ne_gt _)
                  intro x
                  rw [hlpath, hrpath, hlr]
                  exact ⟨id, id⟩
                · intro cc pre a
                  rw [mem_dTL_set hjlt, mem_dTL_at hjlt]
                  have hS := hsub cc pre a
                  tauto
                · intro _ cc pre a ha
                  rw [mem_dTL_set hjlt]
                  exact Or.inl ha
              · rename_i hwild1 hwild2
                split at hded
                · rename_i hsimp
                  injection hded with hded
                  subst hded
                  have h' : ((true, (ch, vec), t) : Bool × MState × UseTree)
                      = (ok, (ch', vec'), t') := h
                  simp only [Prod.mk.injEq] at h'
                  obtain ⟨rfl, ⟨rfl, rfl⟩, rfl⟩ := h'
                  refine ⟨⟨hch, ht, hb, hc⟩, fun _ _ _ => Iff.rfl, fun _ _ _ => Iff.rfl, ?_⟩
                  intro _ cc pre a ha
                  obtain ⟨hts, htg⟩ := is_simple_destruct hsimp.2
                  obtain ⟨hls, hlg⟩ := is_simple_destruct hsimp.1
                  rw [bare_item hts htg cc pre a] at ha
                  subst ha
                  rw [mem_denoteTreeList]
                  refine ⟨getT ch (vec.getD idx 0), hltmem, ?_⟩
                  rw [he1 cc, he2 pre]
                  rw [bare_item hls hlg cc pre]
                · cases hded
            · cases hded
          · rename_i hded
            rcases hRM : recursive_merge fuel
                (splitPfx (getT ch (vec.getD idx 0)) lpre.segs.length)
                (splitPfx t rpre.segs.length) m with ⟨ok1, lt3, rt3⟩
            rw [hRM] at h
            dsimp only at h
            have h' : ((ok1, (ch.set (vec.getD idx 0) lt3, vec), rt3)
                : Bool × MState × UseTree) = (ok, (ch', vec'), t') := h
            simp only [Prod.mk.injEq] at h'
            obtain ⟨rfl, ⟨rfl, rfl⟩, rfl⟩ := h'
            obtain ⟨hccq, hclpos, hlpre, hrpre⟩ := commonPfx_spec hcp
            have hlen : lpre.segs.length = commonLen lp.segs rp.segs := by
              rw [hlpre]
              show (lp.segs.take (commonLen lp.segs rp.segs)).length = _
              rw [List.length_take]
              exact Nat.min_eq_left (commonLen_le_left _ _)
            have hrlen : rpre.segs.length = commonLen lp.segs rp.segs := by
              rw [hrpre]
              show (rp.segs.take (commonLen lp.segs rp.segs)).length = _
              rw [List.length_take]
              exact Nat.min_eq_left (commonLen_le_right _ _)
            have hn1 : 1 ≤ lpre.segs.length := by
              rw [hlen]
              exact hclpos
            have hrn1 : 1 ≤ rpre.segs.length := by
              rw [hrlen]
              exact hclpos
            have hnoself : ¬(lp.segs = [PathSeg.selfKw] ∨ rp.segs = [PathSeg.selfKw]) := by
              intro hsf
              obtain ⟨hlself, hrself, hl1, hr1⟩ := common_self_whole hlpw hrpw hcp hsf
              obtain ⟨hq1, hq2, _⟩ := wfS_self_leaf hlw hlpath hlself
              obtain ⟨hq3, hq4, _⟩ := wfS_self_leaf ht hrpath hrself
              rw [if_pos ⟨hl1, hr1⟩, contains_self_of_leaf hq1 hq2,
                contains_self_of_leaf hq3 hq4] at hded
              have hded2 : (if (getT ch (vec.getD idx 0)).is_simple_path = true
                  ∧ t.is_simple_path = true then
                  some ((true, (ch, vec), t) : Bool × MState × UseTree) else none)
                  = none := hded
              rw [if_pos ⟨is_simple_of_leaf hq1 hq2, is_simple_of_leaf hq3 hq4⟩] at hded2
              cases hded2
            have hlt2w := wfS_splitPfx hlpath hn1 hlw
              (fun hx => absurd (Or.inl hx) hnoself)
            have hrt2w := wfS_splitPfx hrpath hrn1 ht
              (fun hx => absurd (Or.inr hx) hnoself)
            have hlt2p : (splitPfx (getT ch (vec.getD idx 0)) lpre.segs.length).path
                = some ⟨lp.cc, lpre.segs⟩ := by
              rw [splitPfx_path hlpath]
              have h2 : lp.segs.take lpre.segs.length = lpre.segs := by
                rw [hlen, hlpre]
              rw [h2]
            have hrt2p : (splitPfx t rpre.segs.length).path
                = some ⟨lp.cc, lpre.segs⟩ := by
              rw [splitPfx_path hrpath]
              have h2 : rp.segs.take rpre.segs.length = rpre.segs := by
                rw [hrlen, hrpre]
              rw [h2, ← hpair, ← hccq]
            obtain ⟨⟨hP1, hW1, hW2⟩, hRd, hJd, hOkd⟩ :=
              hrm _ _ ⟨lp.cc, lpre.segs⟩ m ok1 lt3 rt3 hRM hlt2w hrt2w hlt2p hrt2p
                (Or.inl ⟨splitPfx_sub_isSome hlpath _, splitPfx_sub_isSome hrpath _⟩)
            have hDl := fun cc pre => denoteTree_splitPfx cc pre hlpath lpre.segs.length
            have hDr := fun cc pre => denoteTree_splitPfx cc pre hrpath rpre.segs.length
            refine ⟨⟨?_, hW2, ?_, ?_⟩, ?_, ?_, ?_⟩
            · intro c hcm
              rcases List.mem_or_eq_of_mem_set hcm with hcm2 | rfl
              · exact hch c hcm2
              · exact hW1
            · intro i hi
              rw [List.length_set]
              exact hb i hi
            · apply chain'_vec_set hc ?_ (path_cmp_for_sort_refl_ne_gt _)
              intro x
              have hP : lt3.path = some ⟨lp.cc, lp.segs.take lpre.segs.length⟩ := by
                rw [hP1, splitPfx_path hlpath]
              rw [hlpath, hP]
              exact forSort_prefix_le hn1 (take_self_of_selfWhole hlpw) x
            · intro cc pre a
              rw [hRd cc pre a, hDr cc pre]
            · intro cc pre a
              rw [mem_dTL_set hjlt, mem_dTL_at hjlt]
              have hJ := hJd cc pre a
              rw [hDl cc pre, hDr cc pre] at hJ
              have hR := hRd cc pre a
              rw [hDr cc pre] at hR
              tauto
            · intro hok cc pre a ha
              rw [mem_dTL_set hjlt]
              have hR := hRd cc pre a
              rw [hDr cc pre] at hR
              have hO := hOkd hok cc pre a
              rw [hDl cc pre, hDr cc pre] at hO
              exact Or.inl (hO.2 (Or.inr (hR.1 ha)))
      · have h' : ((false, (ch, vec), t) : Bool × MState × UseTree)
            = (ok, (ch', vec'), t') := h
        simp only [Prod.mk.injEq] at h'
        obtain ⟨rfl, ⟨rfl, rfl⟩, rfl⟩ := h'
        exact mc_trivial hch ht hb hc
    · rename_i idx hfind
      split at h
      · have h' : ((false, (ch, vec), t) : Bool × MState × UseTree)
            = (ok, (ch', vec'), t') := h
        simp only [Prod.mk.injEq] at h'
        obtain ⟨rfl, ⟨rfl, rfl⟩, rfl⟩ := h'
        exact mc_trivial hch ht hb hc
      · rename_i hguard
        have h' : ((true, (ch ++ [t], List.insertIdx idx ch.length vec), t)
            : Bool × MState × UseTree) = (ok, (ch', vec'), t') := h
        simp only [Prod.mk.injEq] at h'
        obtain ⟨rfl, ⟨rfl, rfl⟩, rfl⟩ := h'
        have hidxle : idx ≤ vec.length := binSearch_notFound_le hfind
        refine ⟨⟨?_, ht, ?_, ?_⟩, fun _ _ _ => Iff.rfl, ?_, ?_⟩
        · intro c hcm
          rcases List.mem_append.1 hcm with h2 | h2
          · exact hch c h2
          · rw [List.mem_singleton] at h2
            subst h2
            exact ht
        · intro i hi
          rw [List.length_append]
          rcases (List.mem_insertIdx hidxle).1 hi with rfl | h2
          · simp
          · have := hb i h2
            simp only [List.length_singleton]
            omega
        · exact chain'_insert_at_search hfind hc hb
            (fun i hi => wfS_neOpt (hch _ (by
              rw [getT_get (hb i hi)]
              exact List.get_mem _ _ _)))
            (wfS_neOpt ht)
        · intro cc pre a
          rw [denoteTreeList_append, denoteTreeList_cons, denoteTreeList_nil,
            List.append_nil, List.mem_append]
          tauto
        · intro _ cc pre a ha
          rw [mem_denoteTreeList]
          exact ⟨t, List.mem_append.2 (Or.inr (by simp)), ha⟩

/-- The four merge-engine invariants hold at every fuel. -/
theorem merge_specs : ∀ fuel : Nat, MCspec fuel ∧ PCspec fuel ∧ STspec fuel ∧ RMspec fuel := by
  intro fuel
  induction fuel with
  | zero => exact ⟨mc_spec_zero, pc_spec_zero, st_spec_zero, rm_spec_zero⟩
  | succ n ih =>
    obtain ⟨hmc, hpc, hst, hrm⟩ := ih
    exact ⟨mc_spec_succ n hrm, pc_spec_succ n hmc hpc, st_spec_succ n hpc, rm_spec_succ n hst⟩

/-- Denotation preservation through try_merge_trees_mut: the possibly
rewritten trees jointly denote exactly what the inputs denoted, and on
success the lhs alone absorbs the union. -/
theorem tmt_spec (fuel : Nat) (lhs rhs : UseTree) (m : MergeBehavior)
    (ok : Bool) (l1 r1 : UseTree)
    (h : try_merge_trees_mut fuel lhs rhs m = (ok, l1, r1))
    (hl : lhs.wfS = true) (hr : rhs.wfS = true) :
    (∀ cc pre a, (a ∈ denoteTree cc pre l1 ∨ a ∈ denoteTree cc pre r1)
      ↔ (a ∈ denoteTree cc pre lhs ∨ a ∈ denoteTree cc pre rhs))
    ∧ (ok = true → ∀ cc pre a, a ∈ denoteTree cc pre l1
      ↔ (a ∈ denoteTree cc pre lhs ∨ a ∈ denoteTree cc pre rhs)) := by
  unfold try_merge_trees_mut at h
  split at h
  · rename_i lp rp hlp hrp
    have hlpw : lp.wfSb = true := (wfS_destruct _ hl).1 lp hlp
    have hrpw : rp.wfSb = true := (wfS_destruct _ hr).1 rp hrp
    split at h
    · rename_i hcp
      have h' : ((false, lhs, rhs) : Bool × UseTree × UseTree) = (ok, l1, r1) := h
      simp only [Prod.mk.injEq] at h'
      obtain ⟨rfl, rfl, rfl⟩ := h'
      exact ⟨fun _ _ _ => Iff.rfl, fun h2 => by cases h2⟩
    · rename_i lpre rpre hcp
      have hpair : lpre = rpre :=
        commonPfx_pair_eq (wfSb_all_wfb hlpw) (wfSb_all_wfb hrpw) hcp
      split at h
      · rename_i hcond
        obtain ⟨hsl, hsr, hlpre, hrpre⟩ := hcond
        have hlr : lp = rp := by
          rw [hlpre, hpair, ← hrpre]
        obtain ⟨hls, hlg⟩ := is_simple_destruct hsl
        obtain ⟨hrs, hrg⟩ := is_simple_destruct hsr
        have hrp2 : rhs.path = some lp := by
          rw [hrp, hlr]
        obtain ⟨⟨hx1, hx2, hx3⟩, hRd, hJd, hOkd⟩ :=
          (merge_specs fuel).2.2.2 lhs rhs lp m ok l1 r1 h hl hr hlp hrp2
            (Or.inr ⟨hls, hrs, hlg, hrg⟩)
        exact ⟨hJd, hOkd⟩
      · rename_i hcond
        obtain ⟨hccq, hclpos, hlpre, hrpre⟩ := commonPfx_spec hcp
        have hlen : lpre.segs.length = commonLen lp.segs rp.segs := by
          rw [hlpre]
          show (lp.segs.take (commonLen lp.segs rp.segs)).length = _
          rw [List.length_take]
          exact Nat.min_eq_left (commonLen_le_left _ _)
        have hrlen : rpre.segs.length = commonLen lp.segs rp.segs := by
          rw [hrpre]
          show (rp.segs.take (commonLen lp.segs rp.segs)).length = _
          rw [List.length_take]
          exact Nat.min_eq_left (commonLen_le_right _ _)
        have hn1 : 1 ≤ lpre.segs.length := by
          rw [hlen]
          exact hclpos
        have hrn1 : 1 ≤ rpre.segs.length := by
          rw [hrlen]
          exact hclpos
        have hnoself : ¬(lp.segs = [PathSeg.selfKw] ∨ rp.segs = [PathSeg.selfKw]) := by
          intro hsf
          obtain ⟨hlself, hrself, hl1, hr1⟩ := common_self_whole hlpw hrpw hcp hsf
          obtain ⟨hq1, hq2, _⟩ := wfS_self_leaf hl hlp hlself
          obtain ⟨hq3, hq4, _⟩ := wfS_self_leaf hr hrp hrself
          exact hcond ⟨is_simple_of_leaf hq1 hq2, is_simple_of_leaf hq3 hq4,
            hl1.symm, hr1.symm⟩
        have hlt2w := wfS_splitPfx hlp hn1 hl (fun hx => absurd (Or.inl hx) hnoself)
        have hrt2w := wfS_splitPfx hrp hrn1 hr (fun hx => absurd (Or.inr hx) hnoself)
        have hlt2p : (splitPfx lhs lpre.segs.length).path = some ⟨lp.cc, lpre.segs⟩ := by
          rw [splitPfx_path hlp]
          have h2 : lp.segs.take lpre.segs.length = lpre.segs := by
            rw [hlen, hlpre]
          rw [h2]
        have hrt2p : (splitPfx rhs rpre.segs.length).path = some ⟨lp.cc, lpre.segs⟩ := by
          rw [splitPfx_path hrp]
          have h2 : rp.segs.take rpre.segs.length = rpre.segs := by
            rw [hrlen, hrpre]
          rw [h2, ← hpair, ← hccq]
        obtain ⟨⟨hx1, hx2, hx3⟩, hRd, hJd, hOkd⟩ :=
          (merge_specs fuel).2.2.2 _ _ ⟨lp.cc, lpre.segs⟩ m ok l1 r1 h hlt2w hrt2w
            hlt2p hrt2p
            (Or.inl ⟨splitPfx_sub_isSome hlp _, splitPfx_sub_isSome hrp _⟩)
        have hDl := fun cc pre => denoteTree_splitPfx cc pre hlp lpre.segs.length
        have hDr := fun cc pre => denoteTree_splitPfx cc pre hrp rpre.segs.length
        constructor
        · intro cc pre a
          have hJ := hJd cc pre a
          rw [hDl cc pre, hDr cc pre] at hJ
          exact hJ
        · intro hok cc pre a
          have hO := hOkd hok cc pre a
          rw [hDl cc pre, hDr cc pre] at hO
          exact hO
  · have h' : ((false, lhs, rhs) : Bool × UseTree × UseTree) = (ok, l1, r1) := h
    simp only [Prod.mk.injEq] at h'
    obtain ⟨rfl, rfl, rfl⟩ := h'
    exact ⟨fun _ _ _ => Iff.rfl, fun h2 => by cases h2⟩

/-- C1: for every pair of import declarations with strongly well-formed
trees and every policy, when try_merge_imports succeeds the returned
declaration denotes exactly the union of the concrete fully-qualified paths
denoted by the two inputs — on the direct success path because the
recursive merger preserves the joint denotation and folds the rhs into the
lhs, and on the fallback path because the flattener groups the two
(possibly partially rewritten, but denotation-preserving) trees verbatim. -/
theorem c1_merge_preserves_denoted_paths (A B : Use) (m : MergeBehavior) (out : Use)
    (hA : ∀ t0, A.use_tree = some t0 → t0.wfS = true)
    (hB : ∀ t0, B.use_tree = some t0 → t0.wfS = true)
    (h : try_merge_imports A B m = some out) :
    ∀ a, a ∈ denoteUse out ↔ (a ∈ denoteUse A ∨ a ∈ denoteUse B) := by
  unfold try_merge_imports at h
  split at h
  · cases h
  · split at h
    · cases h
    · split at h
      · rename_i lt rt hat hbt
        rcases hT : try_merge_trees_mut (mergeFuel lt rt) lt rt m with ⟨ok1, l1, r1⟩
        rw [hT] at h
        dsimp only at h
        obtain ⟨hJd, hOkd⟩ := tmt_spec _ lt rt m ok1 l1 r1 hT (hA lt hat) (hB rt hbt)
        intro a
        have hdA : denoteUse A = denoteTree false [] lt := by
          unfold denoteUse
          rw [hat]
        have hdB : denoteUse B = denoteTree false [] rt := by
          unfold denoteUse
          rw [hbt]
        rw [hdA, hdB]
        by_cases hok : ok1 = true
        · rw [if_pos hok] at h
          injection h with h
          subst h
          show a ∈ denoteTree false [] l1 ↔ _
          exact hOkd hok false [] a
        · rw [if_neg hok] at h
          split at h
          · rename_i res hres
            injection h with h
            subst h
            show a ∈ denoteTree false [] res ↔ _
            rw [merge_into_one_denote hres a]
            exact hJd false [] a
          · cases h
      · cases h

/-- C3 (amended): after recursive_merge runs, the in-memory working vector
built at line 192 and maintained by the insertions at lines 247-250 is
consecutively non-decreasing under path_cmp_for_sort over the live child
list, for strongly well-formed children, so re-running the insertion sort
on the final vector is a no-op; the syntax-level child list itself is NOT
kept sorted (see the counterexample), because add_use_tree appends. -/
theorem c3_amended_working_vector_sorted (fuel : Nat) (lhs rhs : UseTree)
    (m : MergeBehavior) (ok : Bool) (ch : List UseTree) (vec : List Nat) (rhs' : UseTree)
    (h : recursive_merge_st fuel lhs rhs m = (ok, (ch, vec), rhs'))
    (hl : ∀ c ∈ lhs.children, c.wfS = true) (hr : ∀ c ∈ rhs.children, c.wfS = true) :
    List.Chain' (fun i k => idxLe ch i k = true) vec
    ∧ isort (idxLe ch) vec = vec := by
  obtain ⟨⟨hx1, hx2, hx3, hchain⟩, hrest⟩ :=
    (merge_specs fuel).2.2.1 lhs rhs m ok ch vec rhs' h hl hr
  exact ⟨hchain, isort_noop _ _ hchain⟩

/-- Instantiation of c3_amended_working_vector_sorted: merging a::{b, d}
with a::{c} appends c to the child list (children stay b, d, c in syntax
order) while the working vector ends as [0, 2, 1], consecutively sorted,
and the insertion sort leaves it unchanged. -/
theorem c3_amended_witness :
    (∀ c ∈ (grpT ["a"] [bareT ["b"], bareT ["d"]]).children, c.wfS = true)
    ∧ (∀ c ∈ (grpT ["a"] [bareT ["c"]]).children, c.wfS = true)
    ∧ (List.Chain' (fun i k => idxLe [bareT ["b"], bareT ["d"], bareT ["c"]] i k = true)
        [0, 2, 1]
      ∧ isort (idxLe [bareT ["b"], bareT ["d"], bareT ["c"]]) [0, 2, 1] = [0, 2, 1]) :=
  ⟨by decide, by decide,
    c3_amended_working_vector_sorted 9 (grpT ["a"] [bareT ["b"], bareT ["d"]])
      (grpT ["a"] [bareT ["c"]]) .crate true
      [bareT ["b"], bareT ["d"], bareT ["c"]] [0, 2, 1] (grpT ["a"] [bareT ["c"]])
      (by decide) (by decide) (by decide)⟩

/-- Instantiation of c1_merge_preserves_denoted_paths: merging a::b with
a::c under the Crate policy yields a::{b, c}, and a::c is denoted by the
result exactly because it is denoted by one of the inputs. -/
theorem c1_witness :
    (bareT ["a", "b"]).wfS = true ∧ (bareT ["a", "c"]).wfS = true
    ∧ (((false, [nmSeg "a", nmSeg "c"], false) : Item)
          ∈ denoteUse (mkUse (grpT ["a"] [bareT ["b"], bareT ["c"]]))
        ↔ (((false, [nmSeg "a", nmSeg "c"], false) : Item)
            ∈ denoteUse (mkUse (bareT ["a", "b"]))
          ∨ ((false, [nmSeg "a", nmSeg "c"], false) : Item)
            ∈ denoteUse (mkUse (bareT ["a", "c"])))) :=
  ⟨by decide, by decide,
    c1_merge_preserves_denoted_paths (mkUse (bareT ["a", "b"])) (mkUse (bareT ["a", "c"]))
      .crate (mkUse (grpT ["a"] [bareT ["b"], bareT ["c"]]))
      (fun t0 ht0 => by cases ht0; decide)
      (fun t0 ht0 => by cases ht0; decide)
      (by decide)
      (false, [nmSeg "a", nmSeg "c"], false)⟩
